import Mathlib

/-!
# Rolling windows: a shallow embedding of `rollingwindow`

The Go package keeps a ring of buckets (`Window`) that is filled by one of two
policies: `PointPolicy` (the last N inserted values) and `TimePolicy` (the
values of the last N bucket durations).  This file embeds the storage and the
two policies as Lean functions and proves properties of them.

Conventions of the embedding.

* A slice is a `List`; a `nil` slice and an empty slice are both `[]`
  (capacities are not observable through the operations modelled here).
* Go `int` and `int64` values are `Int`.  The arithmetic of the package that
  can leave the 64-bit range on 64-bit inputs is the `int64` subtraction in
  `keepConsistent` and the `int64` division in `selectBucket`; they are
  modelled by `sub64` and `div64`, which wrap modulo `2^64`.  `int` is taken
  to be 64 bits wide, so `int(x)` of an `int64` is `x`.
* `/` and `%` of Go truncate toward zero: `Int.tdiv` and `Int.tmod`.
* A run-time panic is a `Fault`, carried by `Except`.
* The locks are not modelled: every operation runs to completion under the
  policy's lock, so operations are atomic state transformers.
* `time.Now()` is an explicit argument `now`, in nanoseconds since the epoch,
  and a `time.Time` argument is its `UnixNano()` value.
-/

namespace Rollingwindow

/-- Run-time faults (Go panics) of the embedded operations. -/
inductive Fault where
  | indexOutOfRange
  | divideByZero
  | makeLenOutOfRange
  deriving DecidableEq, Repr

/-- The type `Window[T] [][]T`: a sequence of buckets. -/
abbrev Window (T : Type) := List (List T)

/-- Two's complement wrap of an integer into the `int64` range. -/
def wrap64 (x : Int) : Int := (x + 2 ^ 63) % 2 ^ 64 - 2 ^ 63

/-- The `int64` subtraction `x - y` of Go. -/
def sub64 (x y : Int) : Int := wrap64 (x - y)

/-- The `int64` division `x / y` of Go for `y ≠ 0`: the quotient truncated
toward zero (it leaves the range only for `MinInt64 / -1`, which wraps). -/
def div64 (x y : Int) : Int := wrap64 (x.tdiv y)

/-- The read `w[i]` of a bucket; faults when `i` is out of range. -/
def readBucket {T : Type} (w : Window T) (i : Int) : Except Fault (List T) :=
  if 0 ≤ i ∧ i < w.length then .ok (w.getD i.toNat []) else .error .indexOutOfRange

/-- The assignment `w[i] = b`; faults when `i` is out of range. -/
def writeBucket {T : Type} (w : Window T) (i : Int) (b : List T) :
    Except Fault (Window T) :=
  if 0 ≤ i ∧ i < w.length then .ok (w.set i.toNat b) else .error .indexOutOfRange

/-- The statement `w[i] = w[i][:0]`: bucket `i` is cut to length zero. -/
def truncateBucket {T : Type} (w : Window T) (i : Int) : Except Fault (Window T) := do
  let b ← readBucket w i
  writeBucket w i (b.take 0)

/-- The loop `for _, bucket := range w { result += len(bucket) }`. -/
def sumLengths {T : Type} (w : Window T) : Nat :=
  w.foldl (fun result bucket => result + bucket.length) 0

/-! ## window.go -/

/-- Function `NewWindow`: `make([][]T, buckets)`, which faults on a negative length. -/
def NewWindow {T : Type} (buckets : Int) : Except Fault (Window T) :=
  if buckets < 0 then .error .makeLenOutOfRange
  else .ok (List.replicate buckets.toNat [])

/-- Function `NewPreallocatedWindow`: every bucket becomes `make([]T, 0, bucketSize)`,
an empty slice; the `make` faults on a negative capacity. -/
def NewPreallocatedWindow {T : Type} (buckets : Int) (bucketSize : Int) :
    Except Fault (Window T) := do
  let w ← NewWindow (T := T) buckets
  w.mapM (fun _ => if bucketSize < 0 then .error .makeLenOutOfRange else .ok [])

/-! ## point.go -/

/-- The struct `PointPolicy` (without its lock). -/
structure PointPolicy (T : Type) where
  windowSize : Int
  window : Window T
  offset : Int
  deriving DecidableEq, Repr

/-- Function `NewPointPolicy`: a bucket of length below one is replaced by
`make([]T, 1)`, a single zero value (`default`). -/
def NewPointPolicy {T : Type} [Inhabited T] (window : Window T) : PointPolicy T :=
  { windowSize := window.length
    window := window.map (fun bucket => if bucket.length < 1 then [default] else bucket)
    offset := 0 }

/-- Method `PointPolicy.Append`: `w.window[w.offset][0] = value`, then
`w.offset = (w.offset + 1) % w.windowSize`. -/
def PointPolicy.Append {T : Type} (w : PointPolicy T) (value : T) :
    Except Fault (PointPolicy T) := do
  let bucket ← readBucket w.window w.offset
  if bucket.length < 1 then throw Fault.indexOutOfRange
  let window ← writeBucket w.window w.offset (bucket.set 0 value)
  if w.windowSize = 0 then throw Fault.divideByZero
  pure { w with window := window, offset := (w.offset + 1).tmod w.windowSize }

/-- Method `PointPolicy.Reduce`: `f(w.window)`.  The result type `R` is `T` for a
reduction that always returns and `Except Fault T` for one that can fault. -/
def PointPolicy.Reduce {T R : Type} (w : PointPolicy T) (f : Window T → R) : R :=
  f w.window

/-- Method `PointPolicy.Count`: the sum of the bucket lengths. -/
def PointPolicy.Count {T : Type} (w : PointPolicy T) : Nat :=
  sumLengths w.window

/-! ## time.go -/

/-- The struct `TimePolicy` (without its lock).  `bucketSizeNano` stands for
both `bucketSize` and `bucketSizeNano`, and `numberOfBuckets` for both
`numberOfBuckets` and `numberOfBuckets64`, which hold the same numbers. -/
structure TimePolicy (T : Type) where
  bucketSizeNano : Int
  numberOfBuckets : Int
  window : Window T
  lastWindowOffset : Int
  lastWindowTime : Int
  deriving DecidableEq, Repr

/-- Function `NewTimePolicy`: the fields are filled from the arguments, the last
offset and the last time start at zero. -/
def NewTimePolicy {T : Type} (window : Window T) (bucketDuration : Int) : TimePolicy T :=
  { bucketSizeNano := bucketDuration
    numberOfBuckets := window.length
    window := window
    lastWindowOffset := 0
    lastWindowTime := 0 }

/-- Method `resetWindow`: every bucket is cut to length zero. -/
def TimePolicy.resetWindow {T : Type} (w : TimePolicy T) : TimePolicy T :=
  { w with window := w.window.map (fun bucket => bucket.take 0) }

/-- The body of the loop of `resetBuckets`, run `n` times from `counter`:
`offset = (counter + lastWindowOffset) % numberOfBuckets`, then
`window[offset] = window[offset][:0]`. -/
def resetBucketsLoop {T : Type} (lastWindowOffset numberOfBuckets : Int) :
    Nat → Int → Window T → Except Fault (Window T)
  | 0, _, window => .ok window
  | n + 1, counter, window => do
    if numberOfBuckets = 0 then throw Fault.divideByZero
    let offset := (counter + lastWindowOffset).tmod numberOfBuckets
    let window ← truncateBucket window offset
    resetBucketsLoop lastWindowOffset numberOfBuckets n (counter + 1) window

/-- The distance computed at the head of `resetBuckets`. -/
def resetDistance (lastWindowOffset numberOfBuckets windowOffset : Int) : Int :=
  if windowOffset - lastWindowOffset < 0 then
    (numberOfBuckets - lastWindowOffset) + windowOffset
  else windowOffset - lastWindowOffset

/-- Method `resetBuckets`: the loop `for counter := 1; counter < distance; counter++`
makes `distance - 1` rounds (none when `distance ≤ 1`). -/
def TimePolicy.resetBuckets {T : Type} (w : TimePolicy T) (windowOffset : Int) :
    Except Fault (TimePolicy T) := do
  let distance := resetDistance w.lastWindowOffset w.numberOfBuckets windowOffset
  let window ← resetBucketsLoop w.lastWindowOffset w.numberOfBuckets
    (distance - 1).toNat 1 w.window
  pure { w with window := window }

/-- Method `keepConsistent`: two independent tests, in this order. -/
def TimePolicy.keepConsistent {T : Type} (w : TimePolicy T) (adjustedTime : Int)
    (windowOffset : Int) : Except Fault (TimePolicy T) := do
  let w := if sub64 adjustedTime w.lastWindowTime > w.numberOfBuckets then
    w.resetWindow else w
  if adjustedTime ≠ w.lastWindowTime ∧
      sub64 adjustedTime w.lastWindowTime < w.numberOfBuckets then
    w.resetBuckets windowOffset
  else pure w

/-- Method `selectBucket`: `adjustedTime = currentTime.UnixNano() / bucketSizeNano`
and `windowOffset = int(adjustedTime % numberOfBuckets64)`.  Both divisions
fault on a zero divisor. -/
def TimePolicy.selectBucket {T : Type} (w : TimePolicy T) (currentTime : Int) :
    Except Fault (Int × Int) := do
  if w.bucketSizeNano = 0 then throw Fault.divideByZero
  let adjustedTime := div64 currentTime w.bucketSizeNano
  if w.numberOfBuckets = 0 then throw Fault.divideByZero
  let windowOffset := adjustedTime.tmod w.numberOfBuckets
  pure (adjustedTime, windowOffset)

/-- Method `AppendWithTimestamp`: the bucket is selected, the window made consistent,
then the value starts a fresh bucket when the offset differs from the last one and
is appended to the bucket otherwise; the time and the offset are recorded. -/
def TimePolicy.AppendWithTimestamp {T : Type} (w : TimePolicy T) (value : T)
    (timestamp : Int) : Except Fault (TimePolicy T) := do
  let (adjustedTime, windowOffset) ← w.selectBucket timestamp
  let w ← w.keepConsistent adjustedTime windowOffset
  let window ←
    if w.lastWindowOffset ≠ windowOffset then
      writeBucket w.window windowOffset [value]
    else do
      let bucket ← readBucket w.window windowOffset
      writeBucket w.window windowOffset (bucket ++ [value])
  pure { w with window := window, lastWindowTime := adjustedTime,
                lastWindowOffset := windowOffset }

/-- Method `TimePolicy.Reduce` at the clock reading `now`: the result of `f` and the
state left behind. -/
def TimePolicy.Reduce {T : Type} (w : TimePolicy T) (f : Window T → T) (now : Int) :
    Except Fault (T × TimePolicy T) := do
  let (adjustedTime, windowOffset) ← w.selectBucket now
  let w ← w.keepConsistent adjustedTime windowOffset
  pure (f w.window, w)

/-- Method `TimePolicy.Count` at the clock reading `now`: the count and the state
left behind. -/
def TimePolicy.Count {T : Type} (w : TimePolicy T) (now : Int) :
    Except Fault (Nat × TimePolicy T) := do
  let (adjustedTime, windowOffset) ← w.selectBucket now
  let w ← w.keepConsistent adjustedTime windowOffset
  pure (sumLengths w.window, w)

/-- A sequence of `AppendWithTimestamp` calls, in order; each pair is a value
with the timestamp it is appended at. -/
def TimePolicy.appendAll {T : Type} (w : TimePolicy T) :
    List (T × Int) → Except Fault (TimePolicy T)
  | [] => .ok w
  | (value, timestamp) :: rest => do
    let w ← w.AppendWithTimestamp value timestamp
    w.appendAll rest

/-- A sequence of `PointPolicy.Append` calls, in order. -/
def PointPolicy.appendAll {T : Type} (w : PointPolicy T) :
    List T → Except Fault (PointPolicy T)
  | [] => .ok w
  | value :: rest => do
    let w ← w.Append value
    w.appendAll rest

/-- One call on a `PointPolicy`. -/
inductive PointCall (T : Type) where
  | append (value : T)
  | reduce (f : Window T → T)
  | count

/-- The state after one call: `Append` updates it, `Reduce` and `Count` only read
`w.window` and leave every field as it is. -/
def PointPolicy.call {T : Type} (w : PointPolicy T) : PointCall T → Except Fault (PointPolicy T)
  | .append value => w.Append value
  | .reduce _ => .ok w
  | .count => .ok w

/-- A sequence of calls, in order. -/
def PointPolicy.callAll {T : Type} (w : PointPolicy T) :
    List (PointCall T) → Except Fault (PointPolicy T)
  | [] => .ok w
  | c :: rest => do
    let w ← w.call c
    w.callAll rest

/-- The values appended by a sequence of calls, in order. -/
def appended {T : Type} : List (PointCall T) → List T
  | [] => []
  | .append value :: rest => value :: appended rest
  | .reduce _ :: rest => appended rest
  | .count :: rest => appended rest

/-! ## reduce.go -/

/-- Function `Sum`: `result = result + p` over every element of every bucket, from
the zero value of `T`. -/
def Sum {T : Type} [Zero T] [Add T] (w : Window T) : T :=
  w.foldl (fun result bucket => bucket.foldl (fun result p => result + p) result) 0

/-- The two operations of an element type that `Avg` uses besides `+`: the
conversion `T(count)` of an `int` and the division `/`, which faults on a zero
divisor for an integer type. -/
class GoDiv (T : Type) where
  conv : Int → T
  quo : T → T → Except Fault T

/-- The rationals: exact arithmetic, which a floating-point type follows as long as
every intermediate value is representable.  Division does not fault. -/
instance : GoDiv Rat where
  conv := fun count => (count : Rat)
  quo := fun x y => .ok (x / y)

/-- The type `uint8`: values modulo `2^8`; the conversion wraps and `/` is the
quotient of the naturals. -/
instance : GoDiv (Fin 256) where
  conv := fun count => Fin.ofNat (count % 256).toNat
  quo := fun x y => if y = 0 then .error .divideByZero else .ok (x / y)

/-- The loop of `Avg`: the running `result` and `count`. -/
def avgLoop {T : Type} [Add T] (w : Window T) (init : T × Int) : T × Int :=
  w.foldl (fun acc bucket => bucket.foldl (fun acc p => (acc.1 + p, acc.2 + 1)) acc) init

/-- Function `Avg`: `result / T(count)` after the loop. -/
def Avg {T : Type} [Zero T] [Add T] [GoDiv T] (w : Window T) : Except Fault T :=
  GoDiv.quo (avgLoop w (0, 0)).1 (GoDiv.conv (avgLoop w (0, 0)).2)

/-- One round of the loop of `Min` on the pair `(result, started)`. -/
def minStep {T : Type} [LT T] [∀ a b : T, Decidable (a < b)] (acc : T × Bool) (p : T) :
    T × Bool :=
  if acc.2 then (p, false)
  else if p < acc.1 then (p, acc.2) else acc

/-- Function `Min`. -/
def Min {T : Type} [Zero T] [LT T] [∀ a b : T, Decidable (a < b)] (w : Window T) : T :=
  (w.foldl (fun acc bucket => bucket.foldl minStep acc) ((0 : T), true)).1

/-- One round of the loop of `Max` on the pair `(result, started)`. -/
def maxStep {T : Type} [LT T] [∀ a b : T, Decidable (a < b)] (acc : T × Bool) (p : T) :
    T × Bool :=
  if acc.2 then (p, false)
  else if acc.1 < p then (p, acc.2) else acc

/-- Function `Max`. -/
def Max {T : Type} [Zero T] [LT T] [∀ a b : T, Decidable (a < b)] (w : Window T) : T :=
  (w.foldl (fun acc bucket => bucket.foldl maxStep acc) ((0 : T), true)).1

/-! ## The staleness procedure of the specification, and reachable states -/

/-- The distance of the specification: `windowOffset - lastWindowOffset`, plus `N` if
that is negative. -/
def specDistance (numberOfBuckets lastWindowOffset windowOffset : Int) : Int :=
  if windowOffset - lastWindowOffset < 0 then windowOffset - lastWindowOffset + numberOfBuckets
  else windowOffset - lastWindowOffset

/-- The clearing step of the specification: walking forward from `lastWindowOffset` with
wraparound, the `distance - 1` intermediate buckets are emptied. -/
def specClearBetween {T : Type} (window : Window T)
    (numberOfBuckets lastWindowOffset distance : Int) : Window T :=
  (List.range (distance - 1).toNat).foldl
    (fun win (c : Nat) =>
      win.set ((lastWindowOffset + ((c : Int) + 1)) % numberOfBuckets).toNat [])
    window

/-- The three-case staleness procedure as the specification words it: every bucket is
emptied if `adjustedTime - lastWindowTime > N`; else, if
`adjustedTime != lastWindowTime`, the intermediate buckets are emptied; else nothing
is emptied.  The arithmetic is that of the integers. -/
def specKeepConsistent {T : Type} (w : TimePolicy T) (adjustedTime windowOffset : Int) :
    TimePolicy T :=
  if adjustedTime - w.lastWindowTime > w.numberOfBuckets then
    { w with window := w.window.map (fun _ => []) }
  else if adjustedTime ≠ w.lastWindowTime then
    let distance := specDistance w.numberOfBuckets w.lastWindowOffset windowOffset
    { w with
      window := specClearBetween w.window w.numberOfBuckets w.lastWindowOffset distance }
  else w

/-- The states reached from `NewTimePolicy(NewWindow(N), D)` by `AppendWithTimestamp`,
`Reduce` and `Count` calls that return, at `int64` times at or after the epoch. -/
inductive Reachable {T : Type} (N : Nat) (D : Int) : TimePolicy T → Prop where
  | fresh : Reachable N D (NewTimePolicy (List.replicate N []) D)
  | append {w w' : TimePolicy T} (v : T) (t : Int) :
      Reachable N D w → 0 ≤ t → t < 2 ^ 63 → w.AppendWithTimestamp v t = .ok w' →
      Reachable N D w'
  | reduce {w w' : TimePolicy T} (f : Window T → T) (now : Int) (r : T) :
      Reachable N D w → 0 ≤ now → now < 2 ^ 63 → w.Reduce f now = .ok (r, w') →
      Reachable N D w'
  | count {w w' : TimePolicy T} (now : Int) (r : Nat) :
      Reachable N D w → 0 ≤ now → now < 2 ^ 63 → w.Count now = .ok (r, w') →
      Reachable N D w'

/-! ## Values by quantum -/

/-- The values of the appends `pts` (value, timestamp) whose quantum `q = timestamp / D`
satisfies `q mod N = i` and `lo < q ≤ hi`, in append order. -/
def valuesAt {T : Type} (N : Nat) (D lo hi : Int) (pts : List (T × Int)) (i : Nat) : List T :=
  (pts.filter (fun p => decide (div64 p.2 D % (N : Int) = (i : Int) ∧
    lo < div64 p.2 D ∧ div64 p.2 D ≤ hi))).map Prod.fst

/-- The values of the appends `pts` whose quantum `q` satisfies `lo < q ≤ hi`, in
append order. -/
def valuesIn {T : Type} (D lo hi : Int) (pts : List (T × Int)) : List T :=
  (pts.filter (fun p => decide (lo < div64 p.2 D ∧ div64 p.2 D ≤ hi))).map Prod.fst

/-! ## Basic facts -/

theorem wrap64_eq_self {x : Int} (h1 : -2 ^ 63 ≤ x) (h2 : x < 2 ^ 63) : wrap64 x = x := by
  unfold wrap64; omega

theorem sub64_self (a : Int) : sub64 a a = 0 := by
  simp [sub64, wrap64]

theorem sub64_succ (q : Int) : sub64 (q + 1) q = 1 := by
  simp [sub64, wrap64]

theorem readBucket_ok {T : Type} (w : Window T) (i : Int) (h0 : 0 ≤ i) (h1 : i < w.length) :
    readBucket w i = .ok (w.getD i.toNat []) := by
  simp [readBucket, h0, h1]

theorem writeBucket_ok {T : Type} (w : Window T) (i : Int) (b : List T) (h0 : 0 ≤ i)
    (h1 : i < w.length) : writeBucket w i b = .ok (w.set i.toNat b) := by
  simp [writeBucket, h0, h1]

theorem truncateBucket_ok {T : Type} (w : Window T) (i : Int) (h0 : 0 ≤ i)
    (h1 : i < w.length) : truncateBucket w i = .ok (w.set i.toNat []) := by
  simp [truncateBucket, readBucket, writeBucket, h0, h1, bind, Except.bind]

theorem getD_set_bucket {T : Type} (w : Window T) (i j : Nat) (b : List T) (hi : i < w.length) :
    (w.set i b).getD j [] = if i = j then b else w.getD j [] := by
  simp only [List.getD_eq_getElem?_getD, List.getElem?_set]
  split
  · simp [hi]
  · rfl

theorem resetBucketsLoop_spec {T : Type} (last N : Int) (hN : 0 < N) (hl : 0 ≤ last) :
    ∀ (n : Nat) (counter : Int) (window : Window T), 0 ≤ counter → (window.length : Int) = N →
      ∃ window', resetBucketsLoop last N n counter window = .ok window' ∧
        window'.length = window.length ∧
        ∀ j : Nat, window'.getD j [] =
          if ∃ c : Nat, c < n ∧ ((counter + c + last) % N).toNat = j then []
          else window.getD j [] := by
  intro n
  induction n with
  | zero =>
    intro counter window _ _
    exact ⟨window, rfl, rfl, fun j => by simp⟩
  | succ n ih =>
    intro counter window hc hlen
    have hoff : (counter + last).tmod N = (counter + last) % N :=
      Int.tmod_eq_emod (by omega) (by omega)
    have h0 : 0 ≤ (counter + last) % N := Int.emod_nonneg _ (by omega)
    have h1 : (counter + last) % N < N := Int.emod_lt_of_pos _ hN
    have hlt : ((counter + last) % N).toNat < window.length := by omega
    obtain ⟨window', hrun, hlen', hget⟩ :=
      ih (counter + 1) (window.set ((counter + last) % N).toNat []) (by omega)
        (by simpa using hlen)
    refine ⟨window', ?_, ?_, ?_⟩
    · have hne : N ≠ 0 := by omega
      simp only [resetBucketsLoop, hne, hoff]
      rw [truncateBucket_ok window _ h0 (by omega)]
      simpa [bind, Except.bind] using hrun
    · simpa using hlen'
    · intro j
      rw [hget j, getD_set_bucket _ _ _ _ hlt]
      by_cases hj : ((counter + last) % N).toNat = j
      · have hex : ∃ c : Nat, c < n + 1 ∧ ((counter + c + last) % N).toNat = j :=
          ⟨0, by omega, by simpa using hj⟩
        simp [hj, hex]
      · by_cases hex : ∃ c : Nat, c < n ∧ ((counter + 1 + c + last) % N).toNat = j
        · obtain ⟨c, hc1, hc2⟩ := hex
          have hex' : ∃ c : Nat, c < n + 1 ∧ ((counter + c + last) % N).toNat = j :=
            ⟨c + 1, by omega, by
              have : counter + ((c + 1 : Nat) : Int) + last = counter + 1 + c + last := by
                push_cast; ring
              rw [this]; exact hc2⟩
          have hex0 : ∃ c : Nat, c < n ∧ ((counter + 1 + c + last) % N).toNat = j :=
            ⟨c, hc1, hc2⟩
          simp only [hex0, hex', if_true]
        · have hex' : ¬ ∃ c : Nat, c < n + 1 ∧ ((counter + c + last) % N).toNat = j := by
            rintro ⟨c, hc1, hc2⟩
            cases c with
            | zero => exact hj (by simpa using hc2)
            | succ c =>
              apply hex
              refine ⟨c, by omega, ?_⟩
              have : counter + 1 + (c : Int) + last = counter + ((c + 1 : Nat) : Int) + last := by
                push_cast; ring
              rw [this]; exact hc2
          simp only [hex, hex', if_false, hj]

theorem resetDistance_eq_emod (last N wo : Int) (hl : 0 ≤ last ∧ last < N)
    (ho : 0 ≤ wo ∧ wo < N) : resetDistance last N wo = (wo - last) % N := by
  unfold resetDistance
  split
  · rw [← Int.add_emod_self, Int.emod_eq_of_lt (by omega) (by omega)]; ring
  · rw [Int.emod_eq_of_lt (by omega) (by omega)]

theorem resetBuckets_spec {T : Type} (w : TimePolicy T) (windowOffset : Int)
    (hN : 1 ≤ w.numberOfBuckets) (hlen : (w.window.length : Int) = w.numberOfBuckets)
    (hl : 0 ≤ w.lastWindowOffset ∧ w.lastWindowOffset < w.numberOfBuckets)
    (ho : 0 ≤ windowOffset ∧ windowOffset < w.numberOfBuckets) :
    ∃ window', w.resetBuckets windowOffset = .ok { w with window := window' } ∧
      window'.length = w.window.length ∧
      ∀ i : Nat, i < w.window.length →
        ((∃ c : Int, 1 ≤ c ∧ c < (windowOffset - w.lastWindowOffset) % w.numberOfBuckets ∧
            (w.lastWindowOffset + c) % w.numberOfBuckets = i) → window'[i]? = some []) ∧
        ((¬ ∃ c : Int, 1 ≤ c ∧ c < (windowOffset - w.lastWindowOffset) % w.numberOfBuckets ∧
            (w.lastWindowOffset + c) % w.numberOfBuckets = i) → window'[i]? = w.window[i]?) := by
  obtain ⟨window', hrun, hlen', hget⟩ :=
    resetBucketsLoop_spec w.lastWindowOffset w.numberOfBuckets (by omega) hl.1
      ((resetDistance w.lastWindowOffset w.numberOfBuckets windowOffset) - 1).toNat 1
      w.window (by omega) hlen
  refine ⟨window', ?_, hlen', ?_⟩
  · simp only [TimePolicy.resetBuckets, hrun, bind, Except.bind, pure, Except.pure]
  · intro i hi
    have hi' : i < window'.length := by omega
    have hg := hget i
    rw [resetDistance_eq_emod _ _ _ hl ho] at hg
    simp only [List.getD_eq_getElem?_getD, List.getElem?_eq_getElem hi,
      List.getElem?_eq_getElem hi', Option.getD_some] at hg
    rw [List.getElem?_eq_getElem hi, List.getElem?_eq_getElem hi', hg]
    have hiff : (∃ c : Nat, c < ((windowOffset - w.lastWindowOffset) % w.numberOfBuckets - 1).toNat ∧
          ((1 + (c : Int) + w.lastWindowOffset) % w.numberOfBuckets).toNat = i) ↔
        (∃ c : Int, 1 ≤ c ∧ c < (windowOffset - w.lastWindowOffset) % w.numberOfBuckets ∧
          (w.lastWindowOffset + c) % w.numberOfBuckets = i) := by
      constructor
      · rintro ⟨c, hc1, hc2⟩
        refine ⟨1 + c, by omega, by omega, ?_⟩
        have h0 : 0 ≤ (1 + (c : Int) + w.lastWindowOffset) % w.numberOfBuckets :=
          Int.emod_nonneg _ (by omega)
        have : w.lastWindowOffset + (1 + (c : Int)) = 1 + (c : Int) + w.lastWindowOffset := by ring
        rw [this]; omega
      · rintro ⟨c, hc1, hc2, hc3⟩
        refine ⟨(c - 1).toNat, by omega, ?_⟩
        have : 1 + (((c - 1).toNat : Nat) : Int) + w.lastWindowOffset = w.lastWindowOffset + c := by
          omega
        rw [this, hc3]; simp
    constructor
    · intro hex
      rw [if_pos (hiff.mpr hex)]
    · intro hex
      rw [if_neg (fun h => hex (hiff.mp h))]

theorem emod_lt_two_mul (x N : Int) (h0 : 0 ≤ x) (h1 : x < 2 * N) :
    x % N = if x < N then x else x - N := by
  split
  · exact Int.emod_eq_of_lt h0 (by omega)
  · have h : x = (x - N) + N := by ring
    rw [h, Int.add_emod_self, Int.emod_eq_of_lt (by omega) (by omega)]
    ring

/-- C5. With `N ≥ 1` buckets and both offsets in `[0, N)`, `resetBuckets(windowOffset)`
returns normally, changes nothing but the window, and empties exactly the buckets
`(lastWindowOffset + c) mod N` for `1 ≤ c < d`, `d = (windowOffset - lastWindowOffset) mod N`:
those buckets become empty and every other bucket is unchanged, among them the
buckets at `lastWindowOffset` and at `windowOffset`.  For `N = 5`,
`lastWindowOffset = 4`, `windowOffset = 1` the distance is 2 and only bucket 0
is emptied. -/
theorem resetBuckets_clears_strictly_between {T : Type} (w : TimePolicy T)
    (windowOffset : Int) (hN : 1 ≤ w.numberOfBuckets)
    (hlen : (w.window.length : Int) = w.numberOfBuckets)
    (hl : 0 ≤ w.lastWindowOffset ∧ w.lastWindowOffset < w.numberOfBuckets)
    (ho : 0 ≤ windowOffset ∧ windowOffset < w.numberOfBuckets) :
    (∃ window', w.resetBuckets windowOffset = .ok { w with window := window' } ∧
      window'.length = w.window.length ∧
      (∀ i : Nat, i < w.window.length →
        ((∃ c : Int, 1 ≤ c ∧ c < (windowOffset - w.lastWindowOffset) % w.numberOfBuckets ∧
            (w.lastWindowOffset + c) % w.numberOfBuckets = i) → window'[i]? = some []) ∧
        ((¬ ∃ c : Int, 1 ≤ c ∧ c < (windowOffset - w.lastWindowOffset) % w.numberOfBuckets ∧
            (w.lastWindowOffset + c) % w.numberOfBuckets = i) →
          window'[i]? = w.window[i]?)) ∧
      window'[w.lastWindowOffset.toNat]? = w.window[w.lastWindowOffset.toNat]? ∧
      window'[windowOffset.toNat]? = w.window[windowOffset.toNat]?) ∧
    (resetDistance 4 5 1 = 2 ∧
      ∀ (b0 b1 b2 b3 b4 : List T) (D t : Int),
        TimePolicy.resetBuckets ⟨D, 5, [b0, b1, b2, b3, b4], 4, t⟩ 1 =
          .ok ⟨D, 5, [[], b1, b2, b3, b4], 4, t⟩) := by
  refine ⟨?_, by decide, ?_⟩
  · obtain ⟨window', hrun, hlen', hget⟩ := resetBuckets_spec w windowOffset hN hlen hl ho
    have hd := resetDistance_eq_emod _ _ _ hl ho
    unfold resetDistance at hd
    refine ⟨window', hrun, hlen', hget, ?_, ?_⟩
    · refine (hget w.lastWindowOffset.toNat (by omega)).2 ?_
      rintro ⟨c, hc1, hc2, hc3⟩
      rw [emod_lt_two_mul _ _ (by omega) (by split at hd <;> omega)] at hc3
      split at hc3 <;> split at hd <;> omega
    · refine (hget windowOffset.toNat (by omega)).2 ?_
      rintro ⟨c, hc1, hc2, hc3⟩
      rw [emod_lt_two_mul _ _ (by omega) (by split at hd <;> omega)] at hc3
      split at hc3 <;> split at hd <;> omega
  · intro b0 b1 b2 b3 b4 D t
    rfl

/-- The specification of `resetBuckets` at a concrete ring of five buckets with
`lastWindowOffset = 3` and `windowOffset = 1`. -/
theorem resetBuckets_clears_strictly_between_witness :
    ∃ window', TimePolicy.resetBuckets
        (⟨1, 5, [[10], [11], [12], [13], [14]], 3, 8⟩ : TimePolicy Int) 1 =
          .ok ⟨1, 5, window', 3, 8⟩ ∧ window'.length = 5 ∧
        window'[3]? = some [13] ∧ window'[1]? = some [11] :=
  (resetBuckets_clears_strictly_between
      (⟨1, 5, [[10], [11], [12], [13], [14]], 3, 8⟩ : TimePolicy Int) 1
      (by decide) (by decide) (by decide) (by decide)).1.imp
    fun _ h => ⟨h.1, h.2.1, h.2.2.2.1, h.2.2.2.2⟩

/-! ## Facts about the time policy -/

theorem sumLengths_foldl {T : Type} (w : Window T) (acc : Nat) :
    w.foldl (fun result bucket => result + bucket.length) acc =
      acc + (w.map List.length).sum := by
  induction w generalizing acc with
  | nil => simp
  | cons b w ih => simp [ih, Nat.add_assoc]

theorem sumLengths_eq_sum {T : Type} (w : Window T) :
    sumLengths w = (w.map List.length).sum := by
  simp [sumLengths, sumLengths_foldl]

theorem sumLengths_set {T : Type} (w : Window T) (i : Nat) (b : List T) (hi : i < w.length) :
    sumLengths (w.set i b) + (w.getD i []).length = sumLengths w + b.length := by
  simp only [sumLengths_eq_sum]
  induction w generalizing i with
  | nil => simp at hi
  | cons a w ih =>
    cases i with
    | zero => simp; omega
    | succ i =>
      have := ih i (by simpa using hi)
      simp at this ⊢
      omega

theorem selectBucket_ok {T : Type} (w : TimePolicy T) (t : Int) (hD : w.bucketSizeNano ≠ 0)
    (hN : w.numberOfBuckets ≠ 0) :
    w.selectBucket t =
      .ok (div64 t w.bucketSizeNano, (div64 t w.bucketSizeNano).tmod w.numberOfBuckets) := by
  simp [TimePolicy.selectBucket, hD, hN, bind, Except.bind, pure, Except.pure]

theorem keepConsistent_same {T : Type} (w : TimePolicy T) (off : Int)
    (hN : 0 ≤ w.numberOfBuckets) : w.keepConsistent w.lastWindowTime off = .ok w := by
  have h : ¬ (0 > w.numberOfBuckets) := by omega
  simp [TimePolicy.keepConsistent, sub64_self, h, pure, Except.pure]

theorem keepConsistent_full {T : Type} (w : TimePolicy T) (a off : Int)
    (h : w.numberOfBuckets < sub64 a w.lastWindowTime) :
    w.keepConsistent a off = .ok w.resetWindow := by
  have h2 : ¬ sub64 a w.lastWindowTime < w.numberOfBuckets := by omega
  simp [TimePolicy.keepConsistent, h, h2, TimePolicy.resetWindow, pure, Except.pure]

theorem keepConsistent_exact {T : Type} (w : TimePolicy T) (a off : Int)
    (h : sub64 a w.lastWindowTime = w.numberOfBuckets) :
    w.keepConsistent a off = .ok w := by
  simp [TimePolicy.keepConsistent, h, pure, Except.pure]

theorem keepConsistent_missed {T : Type} (w : TimePolicy T) (a off : Int)
    (h1 : a ≠ w.lastWindowTime) (h2 : sub64 a w.lastWindowTime < w.numberOfBuckets) :
    w.keepConsistent a off = w.resetBuckets off := by
  have h : ¬ (sub64 a w.lastWindowTime > w.numberOfBuckets) := by omega
  simp [TimePolicy.keepConsistent, h, h1, h2]

theorem succ_emod (q N : Int) (hN : 1 ≤ N) :
    (q + 1) % N = if q % N + 1 < N then q % N + 1 else 0 := by
  have h0 : 0 ≤ q % N := Int.emod_nonneg _ (by omega)
  have h1 : q % N < N := Int.emod_lt_of_pos _ (by omega)
  rw [← Int.emod_add_emod, emod_lt_two_mul _ _ (by omega) (by omega)]
  split <;> omega

theorem resetBuckets_next {T : Type} (w : TimePolicy T) (q : Int) (hN : 2 ≤ w.numberOfBuckets)
    (hoff : w.lastWindowOffset = q % w.numberOfBuckets) :
    w.resetBuckets ((q + 1) % w.numberOfBuckets) = .ok w := by
  have h0 : 0 ≤ q % w.numberOfBuckets := Int.emod_nonneg _ (by omega)
  have h1 : q % w.numberOfBuckets < w.numberOfBuckets := Int.emod_lt_of_pos _ (by omega)
  have hd : resetDistance w.lastWindowOffset w.numberOfBuckets
      ((q + 1) % w.numberOfBuckets) = 1 := by
    rw [hoff, succ_emod q _ (by omega)]
    unfold resetDistance
    split <;> split <;> omega
  simp only [TimePolicy.resetBuckets, hd]
  rfl

/-- C4. In a state with `N ≥ 2` buckets, `lastWindowTime = q ≥ 0` and
`lastWindowOffset = q mod N`, `AppendWithTimestamp(v, t)` at the next quantum
(`t / D = q + 1`) returns normally, records `q + 1` and `(q + 1) mod N`, sets bucket
`(q + 1) mod N` to exactly `[v]` and leaves every other bucket as it was, bucket
`q mod N` among them; the sum of the bucket lengths afterwards is the sum before,
less the old length of bucket `(q + 1) mod N`, plus one. -/
theorem append_next_quantum_frame {T : Type} (w : TimePolicy T) (v : T) (t q : Int)
    (hN : 2 ≤ w.numberOfBuckets) (hlen : (w.window.length : Int) = w.numberOfBuckets)
    (hD : w.bucketSizeNano ≠ 0) (hq : 0 ≤ q) (hlast : w.lastWindowTime = q)
    (hoff : w.lastWindowOffset = q % w.numberOfBuckets)
    (ht : div64 t w.bucketSizeNano = q + 1) :
    ∃ w', w.AppendWithTimestamp v t = .ok w' ∧
      w'.lastWindowTime = q + 1 ∧
      w'.lastWindowOffset = (q + 1) % w.numberOfBuckets ∧
      w'.window.length = w.window.length ∧
      w'.window[((q + 1) % w.numberOfBuckets).toNat]? = some [v] ∧
      (∀ i : Nat, i ≠ ((q + 1) % w.numberOfBuckets).toNat → w'.window[i]? = w.window[i]?) ∧
      w'.window[(q % w.numberOfBuckets).toNat]? = w.window[(q % w.numberOfBuckets).toNat]? ∧
      sumLengths w'.window + (w.window.getD ((q + 1) % w.numberOfBuckets).toNat []).length =
        sumLengths w.window + 1 := by
  have h0 : 0 ≤ (q + 1) % w.numberOfBuckets := Int.emod_nonneg _ (by omega)
  have h1 : (q + 1) % w.numberOfBuckets < w.numberOfBuckets := Int.emod_lt_of_pos _ (by omega)
  have hne : w.lastWindowOffset ≠ (q + 1) % w.numberOfBuckets := by
    rw [hoff, succ_emod q _ (by omega)]
    have := Int.emod_nonneg q (show w.numberOfBuckets ≠ 0 by omega)
    split <;> omega
  have htm : (q + 1).tmod w.numberOfBuckets = (q + 1) % w.numberOfBuckets :=
    Int.tmod_eq_emod (by omega) (by omega)
  have hkc : w.keepConsistent (q + 1) ((q + 1) % w.numberOfBuckets) = .ok w := by
    rw [keepConsistent_missed w _ _ (by omega) (by rw [hlast, sub64_succ]; omega)]
    exact resetBuckets_next w q hN hoff
  have hlt : ((q + 1) % w.numberOfBuckets).toNat < w.window.length := by omega
  refine ⟨{ w with window := w.window.set ((q + 1) % w.numberOfBuckets).toNat [v],
                   lastWindowTime := q + 1,
                   lastWindowOffset := (q + 1) % w.numberOfBuckets }, ?_, rfl, rfl, ?_, ?_, ?_, ?_, ?_⟩
  · simp only [TimePolicy.AppendWithTimestamp, selectBucket_ok w t hD (by omega), ht, htm,
      bind, Except.bind, hkc, hne, ne_eq, not_false_eq_true, if_true,
      writeBucket_ok w.window _ [v] h0 (by omega), pure, Except.pure]
  · simp
  · simp [hlt]
  · intro i hi
    simp [List.getElem?_set, hi.symm]
  · have : (q % w.numberOfBuckets).toNat ≠ ((q + 1) % w.numberOfBuckets).toNat := by
      have := Int.emod_nonneg q (show w.numberOfBuckets ≠ 0 by omega)
      rw [hoff] at hne
      omega
    simp [List.getElem?_set, this.symm]
  · simpa using sumLengths_set w.window _ [v] hlt

/-- The frame property at a concrete state: three buckets, last append at quantum 4
(offset 1), next append at quantum 5 (offset 2). -/
theorem append_next_quantum_frame_witness :
    ∃ w', TimePolicy.AppendWithTimestamp
        (⟨10, 3, [[1], [2, 3], [4]], 1, 4⟩ : TimePolicy Int) 9 57 = .ok w' ∧
      w'.window[2]? = some [9] ∧ w'.window[1]? = some [2, 3] ∧ w'.window[0]? = some [1] :=
  (append_next_quantum_frame (⟨10, 3, [[1], [2, 3], [4]], 1, 4⟩ : TimePolicy Int) 9 57 4
      (by decide) (by decide) (by decide) (by decide) rfl (by decide) (by decide)).imp
    fun _ h => ⟨h.1, h.2.2.2.2.1, h.2.2.2.2.2.2.1, h.2.2.2.2.2.1 0 (by decide)⟩

theorem div64_nonneg (t D : Int) (h0 : 0 ≤ t) (h1 : t < 2 ^ 63) (hD : 0 < D) :
    0 ≤ div64 t D := by
  have h2 : 0 ≤ t / D := Int.ediv_nonneg h0 (by omega)
  have h3 : t / D ≤ t := Int.ediv_le_self _ h0
  rw [div64, Int.tdiv_eq_ediv h0 (by omega), wrap64_eq_self (by omega) (by omega)]
  exact h2

theorem resetWindow_of_empty {T : Type} (w : TimePolicy T) (he : ∀ b ∈ w.window, b = []) :
    w.resetWindow = w := by
  have : w.window.map (fun bucket => bucket.take 0) = w.window := by
    conv_rhs => rw [← List.map_id w.window]
    exact List.map_congr_left (fun b hb => by simp [he b hb])
  unfold TimePolicy.resetWindow
  rw [this]

theorem keepConsistent_of_empty {T : Type} (w : TimePolicy T) (a off : Int)
    (hN : 1 ≤ w.numberOfBuckets) (hlen : (w.window.length : Int) = w.numberOfBuckets)
    (hl : 0 ≤ w.lastWindowOffset ∧ w.lastWindowOffset < w.numberOfBuckets)
    (ho : 0 ≤ off ∧ off < w.numberOfBuckets) (he : ∀ b ∈ w.window, b = []) :
    w.keepConsistent a off = .ok w := by
  by_cases h1 : w.numberOfBuckets < sub64 a w.lastWindowTime
  · rw [keepConsistent_full w a off h1, resetWindow_of_empty w he]
  · by_cases h2 : a ≠ w.lastWindowTime ∧ sub64 a w.lastWindowTime < w.numberOfBuckets
    · rw [keepConsistent_missed w a off h2.1 h2.2]
      obtain ⟨window', hrun, hlen', hget⟩ := resetBuckets_spec w off hN hlen hl ho
      have : window' = w.window := by
        apply List.ext_getElem? 
        intro i
        by_cases hi : i < w.window.length
        · by_cases hex : ∃ c : Int, 1 ≤ c ∧ c < (off - w.lastWindowOffset) % w.numberOfBuckets ∧
              (w.lastWindowOffset + c) % w.numberOfBuckets = i
          · rw [(hget i hi).1 hex, List.getElem?_eq_getElem hi,
              he _ (List.getElem_mem hi)]
          · exact (hget i hi).2 hex
        · rw [List.getElem?_eq_none (by omega), List.getElem?_eq_none (by omega)]
      rw [hrun, this]
    · have h3 : ¬ (sub64 a w.lastWindowTime > w.numberOfBuckets) := h1
      simp only [TimePolicy.keepConsistent, h3, if_false, h2, pure, Except.pure]

theorem append_of_keepConsistent {T : Type} (w : TimePolicy T) {w' : TimePolicy T} (v : T)
    (t : Int) (hD : w.bucketSizeNano ≠ 0) (hN : w.numberOfBuckets ≠ 0)
    (hkc : w.keepConsistent (div64 t w.bucketSizeNano)
      ((div64 t w.bucketSizeNano).tmod w.numberOfBuckets) = .ok w')
    (h0 : 0 ≤ (div64 t w.bucketSizeNano).tmod w.numberOfBuckets)
    (h1 : (div64 t w.bucketSizeNano).tmod w.numberOfBuckets < w'.window.length) :
    w.AppendWithTimestamp v t = .ok
      { w' with
        window := w'.window.set ((div64 t w.bucketSizeNano).tmod w.numberOfBuckets).toNat
          (if w'.lastWindowOffset ≠ (div64 t w.bucketSizeNano).tmod w.numberOfBuckets then [v]
           else w'.window.getD ((div64 t w.bucketSizeNano).tmod w.numberOfBuckets).toNat []
             ++ [v])
        lastWindowTime := div64 t w.bucketSizeNano
        lastWindowOffset := (div64 t w.bucketSizeNano).tmod w.numberOfBuckets } := by
  simp only [TimePolicy.AppendWithTimestamp, selectBucket_ok w t hD hN, bind, Except.bind, hkc]
  split
  · simp only [writeBucket_ok _ _ _ h0 h1, pure, Except.pure]
  · simp only [readBucket_ok _ _ h0 h1, writeBucket_ok _ _ _ h0 h1, pure, Except.pure]

theorem appendAll_same_quantum {T : Type} (N : Nat) (D q : Int) (hN : 1 ≤ N) (hD : D ≠ 0)
    (hq : 0 ≤ q) :
    ∀ (rest : List (T × Int)) (vs : List T), (∀ p ∈ rest, div64 p.2 D = q) →
      TimePolicy.appendAll
          ⟨D, N, (List.replicate N []).set (q % N).toNat vs, q % N, q⟩ rest =
        .ok ⟨D, N, (List.replicate N []).set (q % N).toNat (vs ++ rest.map Prod.fst),
          q % N, q⟩ := by
  have hN0 : (N : Int) ≠ 0 := by omega
  have h0 : 0 ≤ q % (N : Int) := Int.emod_nonneg _ hN0
  have h1 : q % (N : Int) < N := Int.emod_lt_of_pos _ (by omega)
  have htm : q.tmod (N : Int) = q % N := Int.tmod_eq_emod hq (by omega)
  intro rest
  induction rest with
  | nil => intro vs _; simp [TimePolicy.appendAll]
  | cons p rest ih =>
    intro vs hall
    obtain ⟨v, t⟩ := p
    have ht : div64 t D = q := hall (v, t) (by simp)
    have hstep := append_of_keepConsistent
      (⟨D, N, (List.replicate N []).set (q % N).toNat vs, q % N, q⟩ : TimePolicy T) v t hD hN0
      (by simpa only [ht, htm] using keepConsistent_same
            (⟨D, N, (List.replicate N []).set (q % N).toNat vs, q % N, q⟩ : TimePolicy T)
            (q % N) (by simp))
      (by simp only [ht, htm]; exact h0)
      (by simp only [ht, htm, List.length_set, List.length_replicate]; exact h1)
    simp only [ht, htm, ne_eq, not_true_eq_false, if_false] at hstep
    have hlt : (q % (N : Int)).toNat < (List.replicate N ([] : List T)).length := by
      simp; omega
    rw [getD_set_bucket _ _ _ _ hlt] at hstep
    simp only [if_true, List.set_set] at hstep
    simp only [TimePolicy.appendAll, hstep, bind, Except.bind]
    rw [ih (vs ++ [v]) (fun p hp => hall p (by simp [hp]))]
    simp

theorem NewWindow_ok {T : Type} (N : Nat) :
    NewWindow (T := T) (N : Int) = .ok (List.replicate N []) := by
  simp [NewWindow]

theorem NewTimePolicy_fresh {T : Type} (N : Nat) (D : Int) :
    NewTimePolicy (T := T) (List.replicate N []) D = ⟨D, N, List.replicate N [], 0, 0⟩ := by
  simp [NewTimePolicy]

theorem append_fresh {T : Type} (N : Nat) (D q t : Int) (v : T) (hN : 1 ≤ N) (hD : D ≠ 0)
    (hq : 0 ≤ q) (ht : div64 t D = q) :
    TimePolicy.AppendWithTimestamp ⟨D, N, List.replicate N [], 0, 0⟩ v t =
      .ok ⟨D, N, (List.replicate N []).set (q % N).toNat [v], q % N, q⟩ := by
  have hN0 : (N : Int) ≠ 0 := by omega
  have h0 : 0 ≤ q % (N : Int) := Int.emod_nonneg _ hN0
  have h1 : q % (N : Int) < N := Int.emod_lt_of_pos _ (by omega)
  have htm : q.tmod (N : Int) = q % N := Int.tmod_eq_emod hq (by omega)
  have hstep := append_of_keepConsistent
    (⟨D, N, List.replicate N [], 0, 0⟩ : TimePolicy T) v t hD hN0
    (keepConsistent_of_empty _ _ _ (by simp; omega) (by simp) (by simp; omega)
      (by simp only [ht, htm]; exact ⟨h0, h1⟩)
      (by intro b hb; exact (List.mem_replicate.mp hb).2))
    (by simp only [ht, htm]; exact h0)
    (by simp only [ht, htm, List.length_replicate]; exact h1)
  simp only [ht, htm] at hstep
  rw [hstep]
  have hg : (List.replicate N ([] : List T)).getD (q % (N : Int)).toNat [] = [] := by
    simp [List.getD_eq_getElem?_getD, List.getElem?_replicate]
    split <;> rfl
  rw [hg]
  simp

theorem sumLengths_replicate_set {T : Type} (N i : Nat) (vs : List T) (hi : i < N) :
    sumLengths ((List.replicate N ([] : List T)).set i vs) = vs.length := by
  have h := sumLengths_set (List.replicate N ([] : List T)) i vs (by simpa using hi)
  have hz : sumLengths (List.replicate N ([] : List T)) = 0 := by
    simp [sumLengths_eq_sum]
  have hg : (List.replicate N ([] : List T)).getD i [] = [] := by
    simp [List.getD_eq_getElem?_getD, List.getElem?_replicate, hi]
  rw [hz, hg] at h
  simpa using h

theorem Count_of_keepConsistent {T : Type} (w w' : TimePolicy T) (now : Int)
    (hD : w.bucketSizeNano ≠ 0) (hN : w.numberOfBuckets ≠ 0)
    (hkc : w.keepConsistent (div64 now w.bucketSizeNano)
      ((div64 now w.bucketSizeNano).tmod w.numberOfBuckets) = .ok w') :
    w.Count now = .ok (sumLengths w'.window, w') := by
  simp only [TimePolicy.Count, selectBucket_ok w now hD hN, bind, Except.bind, hkc, pure,
    Except.pure]

theorem Reduce_of_keepConsistent {T : Type} (w w' : TimePolicy T) (f : Window T → T)
    (now : Int) (hD : w.bucketSizeNano ≠ 0) (hN : w.numberOfBuckets ≠ 0)
    (hkc : w.keepConsistent (div64 now w.bucketSizeNano)
      ((div64 now w.bucketSizeNano).tmod w.numberOfBuckets) = .ok w') :
    w.Reduce f now = .ok (f w'.window, w') := by
  simp only [TimePolicy.Reduce, selectBucket_ok w now hD hN, bind, Except.bind, hkc, pure,
    Except.pure]

/-- C3. On a fresh policy over `NewWindow(N)`, `N ≥ 1`, `D > 0`, appending
`v_1 .. v_k` (any `k ≥ 0`) at `int64` timestamps at or after the epoch that all lie in
one quantum `q` returns normally; `Count()` evaluated at a time inside quantum `q`
then returns `k` and leaves the state as it is; bucket `q mod N` holds
`v_1 .. v_k` in append order and every other bucket is empty. -/
theorem same_quantum_appends_count {T : Type} (N : Nat) (D q now : Int)
    (pts : List (T × Int)) (hN : 1 ≤ N) (hD : 0 < D)
    (hts : ∀ p ∈ pts, 0 ≤ p.2 ∧ p.2 < 2 ^ 63 ∧ div64 p.2 D = q)
    (hnow : 0 ≤ now ∧ now < 2 ^ 63 ∧ div64 now D = q) :
    ∃ win w, NewWindow (N : Int) = .ok win ∧
      (NewTimePolicy win D).appendAll pts = .ok w ∧
      w.Count now = .ok (pts.length, w) ∧
      w.window.length = N ∧
      w.window[(q % N).toNat]? = some (pts.map Prod.fst) ∧
      ∀ i : Nat, i < N → i ≠ (q % N).toNat → w.window[i]? = some [] := by
  have hD0 : D ≠ 0 := by omega
  have hq : 0 ≤ q := by
    rw [← hnow.2.2]; exact div64_nonneg now D hnow.1 hnow.2.1 hD
  have hN0 : (N : Int) ≠ 0 := by omega
  have h0 : 0 ≤ q % (N : Int) := Int.emod_nonneg _ hN0
  have h1 : q % (N : Int) < N := Int.emod_lt_of_pos _ (by omega)
  have htm : q.tmod (N : Int) = q % N := Int.tmod_eq_emod hq (by omega)
  have hlt : (q % (N : Int)).toNat < N := by omega
  refine ⟨List.replicate N [], ?_⟩
  rw [NewTimePolicy_fresh]
  cases pts with
  | nil =>
    refine ⟨⟨D, N, List.replicate N [], 0, 0⟩, NewWindow_ok N, rfl, ?_, by simp, ?_, ?_⟩
    · have hkc := keepConsistent_of_empty
        (⟨D, N, List.replicate N [], 0, 0⟩ : TimePolicy T) q (q % N)
        (by simp; omega) (by simp) (by simp; omega) ⟨h0, h1⟩
        (by intro b hb; exact (List.mem_replicate.mp hb).2)
      rw [Count_of_keepConsistent _ _ now hD0 hN0 (by simpa only [hnow.2.2, htm] using hkc)]
      simp [sumLengths_eq_sum]
    · simp [List.getElem?_replicate, hlt]
    · intro i hi _
      simp [List.getElem?_replicate, hi]
  | cons p rest =>
    obtain ⟨v, t⟩ := p
    have ht : div64 t D = q := (hts (v, t) (by simp)).2.2
    have hall : ∀ p ∈ rest, div64 p.2 D = q := fun p hp => (hts p (by simp [hp])).2.2
    refine ⟨⟨D, N, (List.replicate N []).set (q % N).toNat ([v] ++ rest.map Prod.fst),
      q % N, q⟩, NewWindow_ok N, ?_, ?_, by simp, ?_, ?_⟩
    · simp only [TimePolicy.appendAll, append_fresh N D q t v hN hD0 hq ht, bind, Except.bind]
      exact appendAll_same_quantum N D q hN hD0 hq rest [v] hall
    · have hkc := keepConsistent_same
        (⟨D, N, (List.replicate N []).set (q % N).toNat ([v] ++ rest.map Prod.fst),
          q % N, q⟩ : TimePolicy T) (q % N) (by simp)
      rw [Count_of_keepConsistent _ _ now hD0 hN0 (by simpa only [hnow.2.2, htm] using hkc),
        sumLengths_replicate_set N _ _ hlt]
      simp
    · simp [List.getElem?_set, hlt]
    · intro i hi hne
      simp [List.getElem?_set, Ne.symm hne, List.getElem?_replicate, hi]

/-- Three values appended inside quantum 4 of a three-bucket ring with `D = 10`. -/
theorem same_quantum_appends_count_witness :
    ∃ win w, NewWindow (T := Int) ((3 : Nat) : Int) = .ok win ∧
      (NewTimePolicy win 10).appendAll [(7, 40), (8, 45), (9, 49)] = .ok w ∧
      w.Count 47 = .ok (3, w) ∧
      w.window[1]? = some [7, 8, 9] :=
  (same_quantum_appends_count (T := Int) 3 10 4 47 [(7, 40), (8, 45), (9, 49)]
      (by decide) (by decide) (by decide) (by decide)).imp
    fun _ h => h.imp fun _ h => ⟨h.1, h.2.1, h.2.2.1, h.2.2.2.2.1⟩

/-- When the code's staleness test `adjustedTime - lastWindowTime > N` fires, `Count`
returns 0 and `Reduce(f)` returns `f` of `N` empty buckets, at every clock reading;
`AppendWithTimestamp` leaves `v` as the only element provided the offset it computes
is a valid index (which holds for quanta at or after the epoch). -/
theorem stale_window_is_cleared {T : Type} (w : TimePolicy T) (v : T) (f : Window T → T)
    (t : Int) (hN : 1 ≤ w.numberOfBuckets)
    (hlen : (w.window.length : Int) = w.numberOfBuckets) (hD : w.bucketSizeNano ≠ 0)
    (hs : w.numberOfBuckets < sub64 (div64 t w.bucketSizeNano) w.lastWindowTime) :
    w.Count t = .ok (0, w.resetWindow) ∧
    w.Reduce f t = .ok (f (List.replicate w.window.length []), w.resetWindow) ∧
    w.resetWindow.window = List.replicate w.window.length [] ∧
    (0 ≤ div64 t w.bucketSizeNano →
      ∃ w', w.AppendWithTimestamp v t = .ok w' ∧
        w'.window = (List.replicate w.window.length []).set
          ((div64 t w.bucketSizeNano) % w.numberOfBuckets).toNat [v] ∧
        sumLengths w'.window = 1) := by
  have hN0 : w.numberOfBuckets ≠ 0 := by omega
  have hkc := keepConsistent_full w (div64 t w.bucketSizeNano)
    ((div64 t w.bucketSizeNano).tmod w.numberOfBuckets) hs
  have hrw : w.resetWindow.window = List.replicate w.window.length [] := by
    simp [TimePolicy.resetWindow]
  refine ⟨?_, ?_, hrw, ?_⟩
  · rw [Count_of_keepConsistent w _ t hD hN0 hkc, hrw]
    simp [sumLengths_eq_sum]
  · rw [Reduce_of_keepConsistent w _ f t hD hN0 hkc, hrw]
  · intro ha
    have htm : (div64 t w.bucketSizeNano).tmod w.numberOfBuckets =
        div64 t w.bucketSizeNano % w.numberOfBuckets := Int.tmod_eq_emod ha (by omega)
    have h0 : 0 ≤ div64 t w.bucketSizeNano % w.numberOfBuckets := Int.emod_nonneg _ hN0
    have h1 : div64 t w.bucketSizeNano % w.numberOfBuckets < w.numberOfBuckets :=
      Int.emod_lt_of_pos _ (by omega)
    have hlt : (div64 t w.bucketSizeNano % w.numberOfBuckets).toNat < w.window.length := by
      omega
    have hg : (List.replicate w.window.length ([] : List T)).getD
        (div64 t w.bucketSizeNano % w.numberOfBuckets).toNat [] = [] := by
      simp [List.getD_eq_getElem?_getD, List.getElem?_replicate, hlt]
    have hlen2 : (div64 t w.bucketSizeNano).tmod w.numberOfBuckets <
        (w.resetWindow.window.length : Int) := by
      rw [hrw, List.length_replicate, htm]; omega
    have hA := append_of_keepConsistent w v t hD hN0 hkc (by rw [htm]; exact h0) hlen2
    rw [hrw, htm, hg] at hA
    refine ⟨_, hA, ?_, ?_⟩
    · split <;> rfl
    · have : (if w.resetWindow.lastWindowOffset ≠ div64 t w.bucketSizeNano % w.numberOfBuckets
          then [v] else [] ++ [v]) = [v] := by split <;> rfl
      simp only [this]
      exact sumLengths_replicate_set _ _ [v] hlt

/-! ## Evaluations of the time policy at concrete inputs -/

/-- C1, evaluated at `N = 2`, `D = 1`: after `AppendWithTimestamp(1, 0)` the next
append `AppendWithTimestamp(2, 2)` arrives exactly one entire window later
(`2/1 - 0 ≥ 2`), neither test of `keepConsistent` fires, and the window afterwards
holds both values in bucket 0: the sum of bucket lengths is 2, not 1. -/
theorem append_entire_window_apart_keeps_old_point :
    NewWindow (T := Int) 2 = .ok [[], []] ∧
    (NewTimePolicy ([[], []] : Window Int) 1).AppendWithTimestamp 1 0 =
      .ok ⟨1, 2, [[1], []], 0, 0⟩ ∧
    div64 2 1 - 0 ≥ 2 ∧
    TimePolicy.keepConsistent (⟨1, 2, [[1], []], 0, 0⟩ : TimePolicy Int) 2 0 =
      .ok ⟨1, 2, [[1], []], 0, 0⟩ ∧
    TimePolicy.AppendWithTimestamp (⟨1, 2, [[1], []], 0, 0⟩ : TimePolicy Int) 2 2 =
      .ok ⟨1, 2, [[1, 2], []], 0, 2⟩ ∧
    sumLengths ([[1, 2], []] : Window Int) = 2 :=
  ⟨rfl, rfl, by decide, rfl, rfl, rfl⟩

/-- C2, evaluated at `N = 5`, `D = 1`: the state with `lastWindowTime = -10` is reached
by `AppendWithTimestamp(1, -10)`; at the timestamp `-4` the quantum satisfies
`a - q = 6 > 5`, `Count` returns 0, but `AppendWithTimestamp(2, -4)` computes the
offset `-4 % 5 = -4` and faults on the bucket index. -/
theorem stale_append_before_epoch_faults :
    (NewTimePolicy ([[], [], [], [], []] : Window Int) 1).AppendWithTimestamp 1 (-10) =
      .ok ⟨1, 5, [[1], [], [], [], []], 0, -10⟩ ∧
    sub64 (div64 (-4) 1) (-10) = 6 ∧
    TimePolicy.Count (⟨1, 5, [[1], [], [], [], []], 0, -10⟩ : TimePolicy Int) (-4) =
      .ok (0, ⟨1, 5, [[], [], [], [], []], 0, -10⟩) ∧
    TimePolicy.AppendWithTimestamp (⟨1, 5, [[1], [], [], [], []], 0, -10⟩ : TimePolicy Int)
      2 (-4) = .error .indexOutOfRange :=
  ⟨rfl, by decide, rfl, rfl⟩

/-- C6, evaluated at `N = 5`, `D = 1` and the timestamp `-1` (one nanosecond before
the epoch): `selectBucket` returns the offset `-1`, outside `[0, 5)`, and
`AppendWithTimestamp` faults on the bucket index. -/
theorem selectBucket_before_epoch_offset_negative :
    (NewTimePolicy ([[], [], [], [], []] : Window Int) 1).selectBucket (-1) = .ok (-1, -1) ∧
    (NewTimePolicy ([[], [], [], [], []] : Window Int) 1).AppendWithTimestamp 7 (-1) =
      .error .indexOutOfRange :=
  ⟨rfl, rfl⟩

/-! ## Zero buckets -/

/-- C7, refuted: the three constructors accept a bucket count of zero and return a
window and policies with `windowSize = numberOfBuckets = 0`, on which `Count` and
`Reduce` of the point policy run normally. -/
theorem zero_buckets_accepted_at_construction :
    NewWindow (T := Int) 0 = .ok [] ∧
    (NewPointPolicy ([] : Window Int)).windowSize = 0 ∧
    (NewTimePolicy ([] : Window Int) 1).numberOfBuckets = 0 ∧
    (NewPointPolicy ([] : Window Int)).Count = 0 :=
  ⟨rfl, rfl, rfl, rfl⟩

/-- C7, amended: a bucket count of zero is accepted at construction and faults at first
use.  `NewWindow(0)` returns the empty window; `NewPointPolicy` and `NewTimePolicy`
over it return policies with bucket count 0; every `PointPolicy.Append` on that
policy faults on the bucket index (before the modulo is evaluated), and every
`selectBucket`, hence every `AppendWithTimestamp`, `Reduce` and `Count` of the time
policy, faults on a division by zero. -/
theorem zero_buckets_fault_at_first_use {T : Type} [Inhabited T] (D : Int) :
    NewWindow (T := T) 0 = .ok [] ∧
    NewPointPolicy ([] : Window T) = ⟨0, [], 0⟩ ∧
    NewTimePolicy ([] : Window T) D = ⟨D, 0, [], 0, 0⟩ ∧
    (∀ v : T, (NewPointPolicy ([] : Window T)).Append v = .error .indexOutOfRange) ∧
    (∀ t : Int, (NewTimePolicy ([] : Window T) D).selectBucket t = .error .divideByZero) ∧
    (∀ (v : T) (t : Int),
      (NewTimePolicy ([] : Window T) D).AppendWithTimestamp v t = .error .divideByZero) ∧
    (∀ (f : Window T → T) (now : Int),
      (NewTimePolicy ([] : Window T) D).Reduce f now = .error .divideByZero) ∧
    (∀ now : Int, (NewTimePolicy ([] : Window T) D).Count now = .error .divideByZero) := by
  have hsel : ∀ t : Int,
      (NewTimePolicy ([] : Window T) D).selectBucket t = .error .divideByZero := by
    intro t
    by_cases hD : D = 0 <;>
      simp [TimePolicy.selectBucket, NewTimePolicy, hD, bind, Except.bind, pure, Except.pure,
        throw, throwThe, MonadExceptOf.throw]
  refine ⟨rfl, rfl, rfl, fun v => rfl, hsel, ?_, ?_, ?_⟩
  · intro v t
    simp only [TimePolicy.AppendWithTimestamp, hsel t, bind, Except.bind]
  · intro f now
    simp only [TimePolicy.Reduce, hsel now, bind, Except.bind]
  · intro now
    simp only [TimePolicy.Count, hsel now, bind, Except.bind]

/-! ## Facts about the point policy -/

theorem NewPointPolicy_fresh {T : Type} [Inhabited T] (N : Nat) :
    NewPointPolicy (T := T) (List.replicate N []) =
      ⟨N, (List.replicate N default).map (fun x => [x]), 0⟩ := by
  simp [NewPointPolicy]

theorem NewPreallocatedWindow_ok {T : Type} (N : Nat) (c : Int) (hc : 0 ≤ c) :
    NewPreallocatedWindow (T := T) (N : Int) c = .ok (List.replicate N []) := by
  have hc' : ¬ c < 0 := by omega
  have hm : ∀ n : Nat, (List.replicate n ([] : List T)).mapM
      (fun _ => (Except.ok [] : Except Fault (List T))) = .ok (List.replicate n []) := by
    intro n
    induction n with
    | zero => rfl
    | succ n ih =>
      simp only [List.replicate_succ, List.mapM_cons, ih, bind, Except.bind, pure, Except.pure]
  simp only [NewPreallocatedWindow, NewWindow_ok, bind, Except.bind, hc', if_false]
  exact hm N

theorem sumLengths_singletons {T : Type} (xs : List T) :
    sumLengths (xs.map (fun x => [x])) = xs.length := by
  rw [sumLengths_eq_sum]
  induction xs with
  | nil => rfl
  | cons x xs ih => simp at ih ⊢; omega

theorem Append_singletons {T : Type} (N : Nat) (xs : List T) (o : Nat) (v : T) (hN : 1 ≤ N)
    (hxs : xs.length = N) (ho : o < N) :
    PointPolicy.Append ⟨N, xs.map (fun x => [x]), (o : Int)⟩ v =
      .ok ⟨N, (xs.set o v).map (fun x => [x]), (((o + 1) % N : Nat) : Int)⟩ := by
  have h0 : (0 : Int) ≤ (o : Int) := by omega
  have h1 : (o : Int) < ((xs.map (fun x => [x])).length : Int) := by
    simp [hxs]; omega
  have hN0 : ¬ ((N : Int) = 0) := by omega
  have hg : (xs.map (fun x => [x])).getD o [] = [xs[o]] := by
    simp [List.getD_eq_getElem?_getD, List.getElem?_map, List.getElem?_eq_getElem (hxs ▸ ho)]
  have htm : ((o : Int) + 1).tmod (N : Int) = (((o + 1) % N : Nat) : Int) := by
    rw [Int.tmod_eq_emod (by omega) (by omega)]
    norm_cast
  simp only [PointPolicy.Append, readBucket_ok _ _ h0 h1, writeBucket_ok _ _ _ h0 h1, bind,
    Except.bind, Int.toNat_ofNat, hg, List.length_singleton, Nat.lt_irrefl, if_false, hN0,
    pure, Except.pure, htm, List.set_cons_zero, List.map_set]

theorem PointPolicy.appendAll_append {T : Type} (w : PointPolicy T) (xs ys : List T) :
    w.appendAll (xs ++ ys) = (w.appendAll xs).bind (fun w' => w'.appendAll ys) := by
  induction xs generalizing w with
  | nil => rfl
  | cons x xs ih =>
    simp only [List.cons_append, PointPolicy.appendAll, bind]
    cases h : w.Append x with
    | error e => rfl
    | ok w1 =>
      change w1.appendAll (xs ++ ys) = _
      rw [ih]
      rfl

theorem PointPolicy.callAll_eq_appendAll {T : Type} (w : PointPolicy T)
    (calls : List (PointCall T)) : w.callAll calls = w.appendAll (appended calls) := by
  induction calls generalizing w with
  | nil => rfl
  | cons c rest ih =>
    cases c with
    | append v =>
      simp only [PointPolicy.callAll, PointPolicy.call, appended, PointPolicy.appendAll, bind]
      cases h : w.Append v with
      | error e => rfl
      | ok w1 => simp only [Except.bind, ih]
    | reduce f => simp only [PointPolicy.callAll, PointPolicy.call, appended, bind,
        Except.bind, ih]
    | count => simp only [PointPolicy.callAll, PointPolicy.call, appended, bind,
        Except.bind, ih]

theorem mod_eq_add_le {a b N : Nat} (h : a % N = b % N) (hlt : a < b) : a + N ≤ b := by
  have h0 : (b - a) % N = 0 := Nat.sub_mod_eq_zero_of_mod_eq h.symm
  have hd : N ∣ b - a := Nat.dvd_of_mod_eq_zero h0
  have := Nat.le_of_dvd (by omega) hd
  omega

theorem appendAll_slots {T : Type} [Inhabited T] (N : Nat) (hN : 1 ≤ N) (vs : List T) :
    ∃ xs : List T, xs.length = N ∧
      (NewPointPolicy (List.replicate N [])).appendAll vs =
        .ok ⟨N, xs.map (fun x => [x]), ((vs.length % N : Nat) : Int)⟩ ∧
      ∀ i : Nat, i < N →
        (∀ j : Nat, j < vs.length → j % N = i →
          (∀ j' : Nat, j' < vs.length → j' % N = i → j' ≤ j) → xs[i]? = vs[j]?) ∧
        ((∀ j : Nat, j < vs.length → j % N ≠ i) → xs[i]? = some default) := by
  induction vs using List.reverseRecOn with
  | nil =>
    refine ⟨List.replicate N default, by simp, ?_, ?_⟩
    · rw [NewPointPolicy_fresh]; rfl
    · intro i hi
      refine ⟨fun j hj => absurd hj (by simp), fun _ => ?_⟩
      simp [List.getElem?_replicate, hi]
  | append_singleton vs v ih =>
    obtain ⟨xs, hxs, hrun, hslot⟩ := ih
    have hoff : vs.length % N < N := Nat.mod_lt _ (by omega)
    refine ⟨xs.set (vs.length % N) v, by simpa using hxs, ?_, ?_⟩
    · rw [PointPolicy.appendAll_append, hrun]
      simp only [Except.bind, PointPolicy.appendAll, bind]
      rw [Append_singletons N xs _ v hN hxs hoff]
      simp
    · intro i hi
      by_cases hik : vs.length % N = i
      · constructor
        · intro j hj hji hmax
          have hjk : j = vs.length := by
            have := hmax vs.length (by simp) hik
            simp at hj
            omega
          subst hjk
          simp [List.getElem?_set, hik, hxs, hi]
        · intro hnone
          exact absurd hik (hnone vs.length (by simp))
      · constructor
        · intro j hj hji hmax
          have hjlt : j < vs.length := by
            simp at hj
            rcases Nat.lt_or_ge j vs.length with h | h
            · exact h
            · have : j = vs.length := by omega
              subst this
              exact absurd hji hik
          rw [List.getElem?_set_ne hik, List.getElem?_append_left hjlt]
          exact (hslot i hi).1 j hjlt hji
            (fun j' hj' hji' => hmax j' (by simp; omega) hji')
        · intro hnone
          rw [List.getElem?_set_ne hik]
          exact (hslot i hi).2 (fun j hj => hnone j (by simp; omega))

theorem flatten_singletons {T : Type} (xs : List T) :
    (xs.map (fun x => [x])).flatten = xs := by
  induction xs with
  | nil => rfl
  | cons x xs ih => simp [ih]

theorem slots_rotate {T : Type} (N : Nat) (hN : 1 ≤ N) (vs xs : List T) (hxs : xs.length = N)
    (hslot : ∀ i : Nat, i < N → ∀ j : Nat, j < vs.length → j % N = i →
      (∀ j' : Nat, j' < vs.length → j' % N = i → j' ≤ j) → xs[i]? = vs[j]?)
    (hk : N ≤ vs.length) : xs.rotate (vs.length % N) = vs.drop (vs.length - N) := by
  apply List.ext_getElem
  · simp [hxs]; omega
  · intro m h1 h2
    have hm : m < N := by simpa [hxs] using h1
    rw [List.getElem_rotate, List.getElem_drop]
    have hmod : (vs.length - N + m) % N = (m + vs.length % N) % xs.length := by
      rw [hxs, ← Nat.add_mod_right (vs.length - N + m) N, Nat.add_comm m, Nat.mod_add_mod]
      congr 1
      omega
    have hi : (m + vs.length % N) % xs.length < N := by
      rw [hxs]; exact Nat.mod_lt _ (by omega)
    have hj : vs.length - N + m < vs.length := by omega
    have h := hslot _ hi (vs.length - N + m) hj hmod (by
      intro j' hj' hmod'
      by_contra hlt
      have := mod_eq_add_le (hmod.trans hmod'.symm) (by omega)
      omega)
    rw [List.getElem?_eq_getElem (by omega), List.getElem?_eq_getElem hj] at h
    exact Option.some.inj h

theorem count_after_appends {T : Type} [Inhabited T] (N : Nat) (hN : 1 ≤ N) (vs : List T) :
    ∃ p, (NewPointPolicy (List.replicate N [])).appendAll vs = .ok p ∧ p.Count = N := by
  obtain ⟨xs, hxs, hrun, _⟩ := appendAll_slots N hN vs
  exact ⟨_, hrun, by simp [PointPolicy.Count, sumLengths_singletons, hxs]⟩

/-- C8. For `N ≥ 1` and every sequence of `Append`, `Reduce` and `Count` calls on
`NewPointPolicy(NewWindow(N))`, with `v_0 .. v_{k-1}` the appended values in order: the
calls return normally, there are still `N` buckets, bucket `i` holds exactly one
element, namely `v_j` for the largest `j < k` with `j mod N = i` and the zero value
when there is no such `j`; `Reduce(f)` is `f` of that window; for `k ≥ N` the
elements of the window are a permutation of `v_{k-N} .. v_{k-1}`; and for `k = N`
the window is `[v_0], .., [v_{N-1}]` in bucket order. -/
theorem point_policy_tracks_last_values {T : Type} [Inhabited T] (N : Nat)
    (calls : List (PointCall T)) (hN : 1 ≤ N) :
    ∃ win p, NewWindow (N : Int) = .ok win ∧
      (NewPointPolicy win).callAll calls = .ok p ∧
      p.window.length = N ∧
      (∀ i : Nat, i < N → ∃ x : T, p.window[i]? = some [x] ∧
        (∀ j : Nat, j < (appended calls).length → j % N = i →
          (∀ j' : Nat, j' < (appended calls).length → j' % N = i → j' ≤ j) →
          (appended calls)[j]? = some x) ∧
        ((∀ j : Nat, j < (appended calls).length → j % N ≠ i) → x = default)) ∧
      (∀ f : Window T → T, p.Reduce f = f p.window) ∧
      (N ≤ (appended calls).length →
        List.Perm p.window.flatten ((appended calls).drop ((appended calls).length - N))) ∧
      ((appended calls).length = N → p.window = (appended calls).map (fun v => [v])) := by
  obtain ⟨xs, hxs, hrun, hslot⟩ := appendAll_slots N hN (appended calls)
  refine ⟨List.replicate N [],
    ⟨N, xs.map (fun x => [x]), (((appended calls).length % N : Nat) : Int)⟩,
    NewWindow_ok N, ?_, ?_, ?_, fun f => rfl, ?_, ?_⟩
  · rw [PointPolicy.callAll_eq_appendAll]; exact hrun
  · simp [hxs]
  · intro i hi
    have hix : i < xs.length := by omega
    refine ⟨xs[i], by simp [List.getElem?_map, List.getElem?_eq_getElem hix], ?_, ?_⟩
    · intro j hj hji hmax
      rw [← (hslot i hi).1 j hj hji hmax, List.getElem?_eq_getElem hix]
    · intro hnone
      have := (hslot i hi).2 hnone
      rw [List.getElem?_eq_getElem hix] at this
      exact Option.some.inj this
  · intro hk
    show List.Perm (xs.map (fun x => [x])).flatten _
    rw [flatten_singletons,
      ← slots_rotate N hN (appended calls) xs hxs (fun i hi => (hslot i hi).1) hk]
    exact (List.rotate_perm xs _).symm
  · intro hk
    show xs.map (fun x => [x]) = _
    congr 1
    have h := slots_rotate N hN (appended calls) xs hxs (fun i hi => (hslot i hi).1) (by omega)
    simpa [hk] using h

/-- Five values appended to a three-bucket point policy, with a `Count` and a `Reduce`
in between. -/
theorem point_policy_tracks_last_values_witness :
    ∃ win p, NewWindow (T := Int) ((3 : Nat) : Int) = .ok win ∧
      (NewPointPolicy win).callAll
        [.append 10, .count, .append 11, .append 12, .reduce (fun _ => 0), .append 13,
          .append 14] = .ok p ∧
      p.window.length = 3 :=
  (point_policy_tracks_last_values (T := Int) 3
      [.append 10, .count, .append 11, .append 12, .reduce (fun _ => 0), .append 13,
        .append 14] (by decide)).imp
    fun _ h => h.imp fun _ h => ⟨h.1, h.2.1, h.2.2.1⟩

/-- C9. For `N ≥ 1` and a capacity hint `c ≥ 0`, a `PointPolicy` built over
`NewWindow(N)` or over `NewPreallocatedWindow(N, c)` returns `Count() = N` right
after construction and after any sequence of `Append` calls, all of which return
normally. -/
theorem point_count_is_bucket_count {T : Type} [Inhabited T] (N : Nat) (c : Int)
    (vs : List T) (hN : 1 ≤ N) (hc : 0 ≤ c) :
    ∃ win pre p q, NewWindow (N : Int) = .ok win ∧
      NewPreallocatedWindow (N : Int) c = .ok pre ∧
      (NewPointPolicy win).Count = N ∧ (NewPointPolicy pre).Count = N ∧
      (NewPointPolicy win).appendAll vs = .ok p ∧ p.Count = N ∧
      (NewPointPolicy pre).appendAll vs = .ok q ∧ q.Count = N := by
  obtain ⟨p, hp, hc1⟩ := count_after_appends N hN vs
  obtain ⟨p0, hp0, hc0⟩ := count_after_appends (T := T) N hN []
  have h0 : (NewPointPolicy (T := T) (List.replicate N [])).Count = N := by
    simp only [PointPolicy.appendAll, Except.ok.injEq] at hp0
    rw [hp0]; exact hc0
  exact ⟨_, _, p, p, NewWindow_ok N, NewPreallocatedWindow_ok N c hc, h0, h0, hp, hc1, hp, hc1⟩

/-- The count of a four-bucket point policy after three appends. -/
theorem point_count_is_bucket_count_witness :
    ∃ win pre p q, NewWindow (T := Int) ((4 : Nat) : Int) = .ok win ∧
      NewPreallocatedWindow (T := Int) ((4 : Nat) : Int) 8 = .ok pre ∧
      (NewPointPolicy win).Count = 4 ∧
      (NewPointPolicy pre).Count = 4 ∧
      (NewPointPolicy win).appendAll [5, 6, 7] = .ok p ∧ p.Count = 4 ∧
      (NewPointPolicy pre).appendAll [5, 6, 7] = .ok q ∧ q.Count = 4 :=
  point_count_is_bucket_count (T := Int) 4 8 [5, 6, 7] (by decide) (by decide)

/-- C10, refuted at the input of `TestCount` and `TestCountPreallocatedWindow`: over
`NewWindow(100)` and over `NewPreallocatedWindow(100, 100)`, after appending the values
`1 .. 100`, `Count()` returns exactly 100. -/
theorem count_after_hundred_appends_is_hundred :
    ∃ win pre p q, NewWindow (T := Int) ((100 : Nat) : Int) = .ok win ∧
      NewPreallocatedWindow (T := Int) ((100 : Nat) : Int) 100 = .ok pre ∧
      (NewPointPolicy win).appendAll ((List.range 100).map (fun x => (x : Int) + 1)) = .ok p ∧
      p.Count = 100 ∧
      (NewPointPolicy pre).appendAll ((List.range 100).map (fun x => (x : Int) + 1)) = .ok q ∧
      q.Count = 100 := by
  obtain ⟨p, hp, hc⟩ := count_after_appends (T := Int) 100 (by decide)
    ((List.range 100).map (fun x => (x : Int) + 1))
  exact ⟨_, _, p, p, NewWindow_ok 100, NewPreallocatedWindow_ok 100 100 (by decide),
    hp, hc, hp, hc⟩

/-- C10, amended: for a `PointPolicy` over a window of `N ≥ 1` buckets built by
`NewWindow(N)` or by `NewPreallocatedWindow(N, N)`, appending `N` values returns
normally and `Count()` then returns exactly `N`. -/
theorem count_after_N_appends_is_N {T : Type} [Inhabited T] (N : Nat) (vs : List T)
    (hN : 1 ≤ N) (hvs : vs.length = N) :
    ∃ win pre p q, NewWindow (N : Int) = .ok win ∧
      NewPreallocatedWindow (N : Int) (N : Int) = .ok pre ∧
      (NewPointPolicy win).appendAll vs = .ok p ∧ p.Count = vs.length ∧
      (NewPointPolicy pre).appendAll vs = .ok q ∧ q.Count = vs.length := by
  obtain ⟨p, hp, hc⟩ := count_after_appends N hN vs
  exact ⟨_, _, p, p, NewWindow_ok N, NewPreallocatedWindow_ok N N (by omega),
    hp, hvs ▸ hc, hp, hvs ▸ hc⟩

/-- The count of a three-bucket point policy after three appends. -/
theorem count_after_N_appends_is_N_witness :
    ∃ win pre p q, NewWindow (T := Int) ((3 : Nat) : Int) = .ok win ∧
      NewPreallocatedWindow (T := Int) ((3 : Nat) : Int) ((3 : Nat) : Int) = .ok pre ∧
      (NewPointPolicy win).appendAll [1, 2, 3] = .ok p ∧ p.Count = 3 ∧
      (NewPointPolicy pre).appendAll [1, 2, 3] = .ok q ∧ q.Count = 3 :=
  count_after_N_appends_is_N (T := Int) 3 [1, 2, 3] (by decide) rfl

/-! ## Facts about the reductions -/

theorem foldl_buckets {T A : Type} (g : A → T → A) (w : Window T) (init : A) :
    w.foldl (fun acc bucket => bucket.foldl g acc) init = w.flatten.foldl g init := by
  induction w generalizing init with
  | nil => rfl
  | cons b w ih => simp [List.foldl_append, ih]

theorem Sum_eq_foldl {T : Type} [Zero T] [Add T] (w : Window T) :
    Sum w = w.flatten.foldl (fun result p => result + p) 0 :=
  foldl_buckets _ w 0

theorem Sum_eq_sum {T : Type} [AddMonoid T] (w : Window T) : Sum w = w.flatten.sum := by
  rw [Sum_eq_foldl, List.sum_eq_foldl]

theorem avg_foldl {T : Type} [Add T] (l : List T) (r : T) (c : Int) :
    l.foldl (fun acc p => ((acc.1 + p, acc.2 + 1) : T × Int)) (r, c) =
      (l.foldl (fun result p => result + p) r, c + l.length) := by
  induction l generalizing r c with
  | nil => simp
  | cons x l ih => simp [ih]; ring

theorem avgLoop_eq {T : Type} [Zero T] [Add T] (w : Window T) :
    avgLoop w (0, 0) = (Sum w, (w.flatten.length : Int)) := by
  rw [avgLoop, foldl_buckets, avg_foldl, Sum_eq_foldl]
  simp

theorem Avg_eq_quo {T : Type} [Zero T] [Add T] [GoDiv T] (w : Window T) :
    Avg w = GoDiv.quo (Sum w) (GoDiv.conv (w.flatten.length : Int)) := by
  rw [Avg, avgLoop_eq]

theorem minStep_foldl {T : Type} [LinearOrder T] (l : List T) (r : T) :
    l.foldl minStep (r, false) = (l.foldl min r, false) := by
  induction l generalizing r with
  | nil => rfl
  | cons x l ih =>
    have : minStep (r, false) x = (min r x, false) := by
      simp only [minStep, Bool.false_eq_true, if_false]
      by_cases h : x < r
      · simp [h, min_eq_right (le_of_lt h)]
      · simp [h, min_eq_left (not_lt.mp h)]
    simp only [List.foldl_cons, this, ih]

theorem maxStep_foldl {T : Type} [LinearOrder T] (l : List T) (r : T) :
    l.foldl maxStep (r, false) = (l.foldl max r, false) := by
  induction l generalizing r with
  | nil => rfl
  | cons x l ih =>
    have : maxStep (r, false) x = (max r x, false) := by
      simp only [maxStep, Bool.false_eq_true, if_false]
      by_cases h : r < x
      · simp [h, max_eq_right (le_of_lt h)]
      · simp [h, max_eq_left (not_lt.mp h)]
    simp only [List.foldl_cons, this, ih]

theorem Min_nil {T : Type} [LinearOrder T] [Zero T] (w : Window T) (h : w.flatten = []) :
    Min w = 0 := by
  rw [Min, foldl_buckets, h]; rfl

theorem Min_cons {T : Type} [LinearOrder T] [Zero T] (w : Window T) (x : T) (l : List T)
    (h : w.flatten = x :: l) : Min w = l.foldl min x := by
  rw [Min, foldl_buckets, h]
  simp [minStep, minStep_foldl]

theorem Max_nil {T : Type} [LinearOrder T] [Zero T] (w : Window T) (h : w.flatten = []) :
    Max w = 0 := by
  rw [Max, foldl_buckets, h]; rfl

theorem Max_cons {T : Type} [LinearOrder T] [Zero T] (w : Window T) (x : T) (l : List T)
    (h : w.flatten = x :: l) : Max w = l.foldl max x := by
  rw [Max, foldl_buckets, h]
  simp [maxStep, maxStep_foldl]

theorem foldl_min_mem_le {T : Type} [LinearOrder T] (l : List T) (x : T) :
    l.foldl min x ∈ x :: l ∧ ∀ y ∈ x :: l, l.foldl min x ≤ y := by
  induction l generalizing x with
  | nil => simp
  | cons a l ih =>
    obtain ⟨hm, hle⟩ := ih (min x a)
    constructor
    · simp only [List.foldl_cons, List.mem_cons] at hm ⊢
      rcases hm with h | h
      · rcases min_choice x a with h' | h'
        · left; rw [h, h']
        · right; left; rw [h, h']
      · right; right; exact h
    · intro y hy
      simp only [List.foldl_cons]
      simp only [List.mem_cons] at hy
      rcases hy with h | h | h
      · subst h; exact (hle _ (List.mem_cons_self _ _)).trans (min_le_left _ _)
      · subst h; exact (hle _ (List.mem_cons_self _ _)).trans (min_le_right _ _)
      · exact hle y (by simp [h])

theorem foldl_max_mem_le {T : Type} [LinearOrder T] (l : List T) (x : T) :
    l.foldl max x ∈ x :: l ∧ ∀ y ∈ x :: l, y ≤ l.foldl max x := by
  induction l generalizing x with
  | nil => simp
  | cons a l ih =>
    obtain ⟨hm, hle⟩ := ih (max x a)
    constructor
    · simp only [List.foldl_cons, List.mem_cons] at hm ⊢
      rcases hm with h | h
      · rcases max_choice x a with h' | h'
        · left; rw [h, h']
        · right; left; rw [h, h']
      · right; right; exact h
    · intro y hy
      simp only [List.foldl_cons]
      simp only [List.mem_cons] at hy
      rcases hy with h | h | h
      · subst h; exact (le_max_left _ _).trans (hle _ (List.mem_cons_self _ _))
      · subst h; exact (le_max_right _ _).trans (hle _ (List.mem_cons_self _ _))
      · exact hle y (by simp [h])

theorem Min_mem_le {T : Type} [LinearOrder T] [Zero T] (w : Window T) (h : w.flatten ≠ []) :
    Min w ∈ w.flatten ∧ ∀ y ∈ w.flatten, Min w ≤ y := by
  cases hf : w.flatten with
  | nil => exact absurd hf h
  | cons x l => rw [Min_cons w x l hf]; exact foldl_min_mem_le l x

theorem Max_mem_le {T : Type} [LinearOrder T] [Zero T] (w : Window T) (h : w.flatten ≠ []) :
    Max w ∈ w.flatten ∧ ∀ y ∈ w.flatten, y ≤ Max w := by
  cases hf : w.flatten with
  | nil => exact absurd hf h
  | cons x l => rw [Max_cons w x l hf]; exact foldl_max_mem_le l x

theorem appendAll_full {T : Type} [Inhabited T] (N : Nat) (hN : 1 ≤ N) (vs : List T)
    (hvs : vs.length = N) :
    (NewPointPolicy (List.replicate N [])).appendAll vs =
      .ok ⟨N, vs.map (fun v => [v]), 0⟩ := by
  obtain ⟨xs, hxs, hrun, hslot⟩ := appendAll_slots N hN vs
  have h := slots_rotate N hN vs xs hxs (fun i hi => (hslot i hi).1) (by omega)
  simp [hvs] at h
  rw [hrun, h, hvs]
  simp

theorem sum_one_to {R : Type} [CommRing R] (n : Nat) :
    ((List.range n).map (fun x => ((x : Nat) : R) + 1)).sum * 2 = (n : R) * (n + 1) := by
  induction n with
  | zero => simp
  | succ n ih =>
    rw [List.range_succ, List.map_append, List.sum_append, add_mul, ih]
    simp
    ring

theorem Reduce_full {T R : Type} [Inhabited T] (N : Nat) (hN : 1 ≤ N) (vs : List T)
    (hvs : vs.length = N) (f : Window T → R) :
    ∃ p, (NewPointPolicy (List.replicate N [])).appendAll vs = .ok p ∧
      p.window.flatten = vs ∧ p.Reduce f = f (vs.map (fun v => [v])) :=
  ⟨_, appendAll_full N hN vs hvs, flatten_singletons vs, rfl⟩

/-- C11, refuted: a bucket that holds two elements on entry still holds two elements
after `NewPointPolicy`, and `Append` overwrites only its first element. -/
theorem NewPointPolicy_keeps_long_bucket :
    (NewPointPolicy ([[1, 2], []] : Window Int)).window = [[1, 2], [0]] ∧
    (NewPointPolicy ([[1, 2], []] : Window Int)).Append 9 = .ok ⟨2, [[9, 2], [0]], 1⟩ :=
  ⟨rfl, rfl⟩

/-- C11, amended: after `NewPointPolicy(window)` the number of buckets is unchanged and
every bucket holds at least one element: a bucket that was empty on entry holds
exactly one element, the zero value, and a bucket that held one or more elements is
left as it was.  So when no bucket holds more than one element on entry, every
bucket holds exactly one element afterwards. -/
theorem NewPointPolicy_buckets {T : Type} [Inhabited T] (window : Window T) :
    (NewPointPolicy window).window.length = window.length ∧
    (∀ (i : Nat) (b : List T), window[i]? = some b →
      (b = [] → (NewPointPolicy window).window[i]? = some [default]) ∧
      (b ≠ [] → (NewPointPolicy window).window[i]? = some b)) ∧
    (∀ b ∈ (NewPointPolicy window).window, 1 ≤ b.length) ∧
    ((∀ b ∈ window, b.length ≤ 1) → ∀ b ∈ (NewPointPolicy window).window, b.length = 1) := by
  refine ⟨by simp [NewPointPolicy], ?_, ?_, ?_⟩
  · intro i b hb
    constructor
    · intro he
      simp [NewPointPolicy, List.getElem?_map, hb, he]
    · intro hne
      have : ¬ b.length < 1 := by
        cases b with
        | nil => exact absurd rfl hne
        | cons x l => simp
      simp [NewPointPolicy, List.getElem?_map, hb, this]
  · intro b hb
    simp only [NewPointPolicy, List.mem_map] at hb
    obtain ⟨a, _, rfl⟩ := hb
    split
    · simp
    · omega
  · intro h b hb
    simp only [NewPointPolicy, List.mem_map] at hb
    obtain ⟨a, ha, rfl⟩ := hb
    have := h a ha
    split
    · simp
    · omega

/-- The buckets of a point policy built over an empty bucket and a one-element
bucket. -/
theorem NewPointPolicy_buckets_witness :
    ∀ b ∈ (NewPointPolicy ([[], [5]] : Window Int)).window, b.length = 1 :=
  (NewPointPolicy_buckets ([[], [5]] : Window Int)).2.2.2 (by decide)

/-- C12. For every element type with a zero and an addition, `Sum(w)` is the left fold
of `+` over the concatenation of the buckets, from the zero value; it is the zero
value when no bucket has an element; where addition is associative with the zero as
unit it is the sum of the concatenation.  On a 100-bucket point policy after
appending `1 .. 100`, `Reduce(Sum)` is 5050. -/
theorem Sum_is_sum_of_elements :
    (∀ (T : Type) [Zero T] [Add T] (w : Window T),
      Sum w = w.flatten.foldl (fun result p => result + p) 0 ∧
      ((∀ b ∈ w, b = []) → Sum w = 0)) ∧
    (∀ (T : Type) [AddMonoid T] (w : Window T), Sum w = w.flatten.sum) ∧
    (∃ p, (NewPointPolicy (List.replicate 100 [])).appendAll
        ((List.range 100).map (fun x : Nat => (x : Int) + 1)) = .ok p ∧
      p.Reduce Sum = 5050) := by
  refine ⟨?_, ?_, ?_⟩
  · intro T _ _ w
    refine ⟨Sum_eq_foldl w, fun h => ?_⟩
    have : w.flatten = [] := by
      rw [List.flatten_eq_nil_iff]; exact h
    rw [Sum_eq_foldl, this]; rfl
  · intro T _ w
    exact Sum_eq_sum w
  · obtain ⟨p, hp, _, hr⟩ := Reduce_full 100 (by decide)
      ((List.range 100).map (fun x : Nat => (x : Int) + 1)) (by simp) Sum
    refine ⟨p, hp, ?_⟩
    rw [hr, Sum_eq_sum, flatten_singletons]
    have := sum_one_to (R := Int) 100
    simp only [Nat.cast_ofNat] at this
    omega

/-- The sum of a window with an empty bucket, and of a window of empty buckets. -/
theorem Sum_is_sum_of_elements_witness :
    Sum ([[], []] : Window Int) = 0 :=
  (Sum_is_sum_of_elements.1 Int [[], []]).2 (by decide)

theorem Avg_rat (w : Window Rat) :
    Avg w = .ok (w.flatten.sum / (w.flatten.length : Rat)) := by
  rw [Avg_eq_quo, Sum_eq_sum]
  simp only [GoDiv.quo, GoDiv.conv, Int.cast_natCast]

/-- The run of `TestAvg` in exact arithmetic: on a 100-bucket point policy after
appending `1 .. 100`, `Reduce(Avg)` is `101/2 = 50.5`. -/
theorem Avg_one_to_hundred :
    ∃ p, (NewPointPolicy (List.replicate 100 [])).appendAll
        ((List.range 100).map (fun x : Nat => (x : Rat) + 1)) = .ok p ∧
      p.Reduce Avg = .ok (101 / 2) := by
  obtain ⟨p, hp, _, hr⟩ := Reduce_full 100 (by decide)
    ((List.range 100).map (fun x : Nat => (x : Rat) + 1)) (by simp) Avg
  refine ⟨p, hp, ?_⟩
  rw [hr, Avg_rat, flatten_singletons]
  have h := sum_one_to (R := Rat) 100
  simp only [Nat.cast_ofNat] at h
  have hs : ((List.range 100).map (fun x : Nat => (x : Rat) + 1)).sum = 5050 := by
    linarith
  simp only [hs, List.length_map, List.length_range]
  norm_num

theorem conv_uint8_val (m : Nat) : (GoDiv.conv (m : Int) : Fin 256).val = m % 256 := by
  show (((m : Int) % 256).toNat) % 256 = m % 256
  omega

theorem Avg_uint8_faults_iff (w : Window (Fin 256)) :
    Avg w = .error .divideByZero ↔ w.flatten.length % 256 = 0 := by
  have hv := conv_uint8_val w.flatten.length
  rw [Avg_eq_quo]
  simp only [GoDiv.quo]
  constructor
  · intro h
    by_cases hc : (GoDiv.conv (w.flatten.length : Int) : Fin 256) = 0
    · rw [hc] at hv
      simpa using hv.symm
    · rw [if_neg hc] at h
      cases h
  · intro h
    have hc : (GoDiv.conv (w.flatten.length : Int) : Fin 256) = 0 := by
      apply Fin.ext
      rw [hv, h]
      rfl
    rw [if_pos hc]

theorem Avg_uint8_of_small_count (w : Window (Fin 256)) (h1 : 1 ≤ w.flatten.length)
    (h2 : w.flatten.length < 256) :
    ∃ r : Fin 256, Avg w = .ok r ∧ r.val = (Sum w).val / w.flatten.length := by
  have hv := conv_uint8_val w.flatten.length
  have hmod : w.flatten.length % 256 = w.flatten.length := Nat.mod_eq_of_lt h2
  have hc : (GoDiv.conv (w.flatten.length : Int) : Fin 256) ≠ 0 := by
    intro h
    rw [h] at hv
    have : (0 : Fin 256).val = 0 := rfl
    omega
  refine ⟨Sum w / GoDiv.conv (w.flatten.length : Int), ?_, ?_⟩
  · rw [Avg_eq_quo]
    simp only [GoDiv.quo, if_neg hc]
  · show (Sum w).val / (GoDiv.conv (w.flatten.length : Int) : Fin 256).val = _
    rw [hv, hmod]

theorem foldl_add_zeros (n : Nat) (x : Fin 256) :
    (List.replicate n (0 : Fin 256)).foldl (fun result p => result + p) x = x := by
  induction n with
  | zero => rfl
  | succ n ih => rw [List.replicate_succ, List.foldl_cons, add_zero, ih]

/-- C13, evaluated at the element type `uint8`: in a window of 257 one-element buckets
that hold 200 and then 256 zeros, the sum is 200 and the number of elements is 257,
so the sum divided by the number of elements is 0; the conversion of the count gives
`uint8(257) = 1` and `Avg` returns `200 / 1 = 200`.  The window is the one a point
policy over `NewWindow(257)` holds after `Append(200)`. -/
theorem Avg_uint8_divides_by_wrapped_count :
    ((200 :: List.replicate 256 (0 : Fin 256)).map (fun v => [v])).flatten.length = 257 ∧
    Sum ((200 :: List.replicate 256 (0 : Fin 256)).map (fun v => [v])) = 200 ∧
    (GoDiv.conv (257 : Int) : Fin 256) = 1 ∧
    Avg ((200 :: List.replicate 256 (0 : Fin 256)).map (fun v => [v])) = .ok 200 ∧
    (200 : Fin 256).val / 257 = 0 ∧
    (∃ p, (NewPointPolicy (List.replicate 257 ([] : List (Fin 256)))).Append 200 = .ok p ∧
      p.window = (200 :: List.replicate 256 (0 : Fin 256)).map (fun v => [v]) ∧
      p.Reduce Avg = .ok 200) := by
  have hlen : ((200 :: List.replicate 256 (0 : Fin 256)).map (fun v => [v])).flatten.length
      = 257 := by
    rw [flatten_singletons, List.length_cons, List.length_replicate]
  have hsum : Sum ((200 :: List.replicate 256 (0 : Fin 256)).map (fun v => [v])) = 200 := by
    rw [Sum_eq_foldl, flatten_singletons, List.foldl_cons, foldl_add_zeros]
    rfl
  have havg : Avg ((200 :: List.replicate 256 (0 : Fin 256)).map (fun v => [v])) =
      .ok 200 := by
    rw [Avg_eq_quo, hsum, hlen]
    rfl
  refine ⟨hlen, hsum, rfl, havg, by decide, ?_⟩
  have happ := Append_singletons 257 (List.replicate 257 (default : Fin 256)) 0 200
    (by decide) (List.length_replicate _ _) (by decide)
  have hxs : (List.replicate 257 (default : Fin 256)).set 0 200 =
      200 :: List.replicate 256 0 := by
    rw [show (257 : Nat) = 256 + 1 from rfl, List.replicate_succ, List.set_cons_zero]
    rfl
  rw [hxs] at happ
  have hrun : (NewPointPolicy (List.replicate 257 ([] : List (Fin 256)))).Append 200 =
      .ok ⟨(257 : Nat), (200 :: List.replicate 256 (0 : Fin 256)).map (fun v => [v]),
        (((0 + 1) % 257 : Nat) : Int)⟩ := by
    rw [NewPointPolicy_fresh]
    exact happ
  exact ⟨_, hrun, rfl, havg⟩

/-- C14, evaluated at the element type `uint8`: a window of 256 buckets with one element
each is not empty, the conversion of its count gives `uint8(256) = 0`, and `Avg`
faults with a division by zero; so does `Reduce(Avg)` on a fresh point policy over
`NewWindow(256)`. -/
theorem Avg_uint8_faults_on_256_elements :
    (List.replicate 256 ([1] : List (Fin 256))).flatten.length = 256 ∧
    (GoDiv.conv (256 : Int) : Fin 256) = 0 ∧
    Avg (List.replicate 256 ([1] : List (Fin 256))) = .error .divideByZero ∧
    (NewPointPolicy (List.replicate 256 ([] : List (Fin 256)))).Reduce Avg =
      .error .divideByZero := by
  refine ⟨by rw [List.flatten_replicate_singleton, List.length_replicate], rfl, ?_, ?_⟩
  · rw [Avg_eq_quo]
    simp only [List.flatten_replicate_singleton, List.length_replicate]
    rfl
  · rw [NewPointPolicy_fresh]
    show Avg _ = _
    rw [Avg_eq_quo, flatten_singletons]
    simp only [List.length_replicate]
    rfl

/-- C15. Over a linearly ordered element type, for a window with at least one element
`Min(w)` is an element of the window that is `≤` every element, wherever the empty
buckets are; for a window without elements it is the zero value.  On a 100-bucket
point policy `Reduce(Min)` is 1 after appending `1 .. 100` and 0 after appending
`100 - x` for `x = 1 .. 100`. -/
theorem Min_is_least_element :
    (∀ (T : Type) [LinearOrder T] [Zero T] (w : Window T),
      (w.flatten ≠ [] → Min w ∈ w.flatten ∧ ∀ y ∈ w.flatten, Min w ≤ y) ∧
      ((∀ b ∈ w, b = []) → Min w = 0)) ∧
    (∃ p, (NewPointPolicy (List.replicate 100 [])).appendAll
        ((List.range 100).map (fun x : Nat => (x : Int) + 1)) = .ok p ∧
      p.Reduce Min = 1) ∧
    (∃ p, (NewPointPolicy (List.replicate 100 [])).appendAll
        ((List.range 100).map (fun x : Nat => 100 - ((x : Int) + 1))) = .ok p ∧
      p.Reduce Min = 0) := by
  refine ⟨?_, ?_, ?_⟩
  · intro T _ _ w
    exact ⟨Min_mem_le w, fun h => Min_nil w (List.flatten_eq_nil_iff.mpr h)⟩
  · obtain ⟨p, hp, _, hr⟩ := Reduce_full 100 (by decide)
      ((List.range 100).map (fun x : Nat => (x : Int) + 1)) (by simp) Min
    refine ⟨p, hp, ?_⟩
    rw [hr]
    obtain ⟨hm, hle⟩ := Min_mem_le
      (((List.range 100).map (fun x : Nat => (x : Int) + 1)).map (fun v => [v]))
      (by rw [flatten_singletons]; simp)
    rw [flatten_singletons] at hm hle
    have h1 := hle 1 (List.mem_map.mpr ⟨0, by simp, by simp⟩)
    obtain ⟨x, _, hx⟩ := List.mem_map.mp hm
    omega
  · obtain ⟨p, hp, _, hr⟩ := Reduce_full 100 (by decide)
      ((List.range 100).map (fun x : Nat => 100 - ((x : Int) + 1))) (by simp) Min
    refine ⟨p, hp, ?_⟩
    rw [hr]
    obtain ⟨hm, hle⟩ := Min_mem_le
      (((List.range 100).map (fun x : Nat => 100 - ((x : Int) + 1))).map (fun v => [v]))
      (by rw [flatten_singletons]; simp)
    rw [flatten_singletons] at hm hle
    have h1 := hle 0 (List.mem_map.mpr ⟨99, by simp, by simp⟩)
    obtain ⟨x, hx0, hx⟩ := List.mem_map.mp hm
    have := List.mem_range.mp hx0
    omega

/-- The minimum of a window whose first bucket is empty. -/
theorem Min_is_least_element_witness :
    Min ([[], [5, 2], [], [3]] : Window Int) ∈ ([[], [5, 2], [], [3]] : Window Int).flatten ∧
    ∀ y ∈ ([[], [5, 2], [], [3]] : Window Int).flatten,
      Min ([[], [5, 2], [], [3]] : Window Int) ≤ y :=
  (Min_is_least_element.1 Int [[], [5, 2], [], [3]]).1 (by decide)

/-- C16. Over a linearly ordered element type, for a window with at least one element
`Max(w)` is an element of the window that is `≥` every element, wherever the empty
buckets are; for a window without elements it is the zero value.  On a 100-bucket
point policy `Reduce(Max)` is 99 after appending `100 - x` for `x = 1 .. 100` and
100 after appending `1 .. 100`. -/
theorem Max_is_greatest_element :
    (∀ (T : Type) [LinearOrder T] [Zero T] (w : Window T),
      (w.flatten ≠ [] → Max w ∈ w.flatten ∧ ∀ y ∈ w.flatten, y ≤ Max w) ∧
      ((∀ b ∈ w, b = []) → Max w = 0)) ∧
    (∃ p, (NewPointPolicy (List.replicate 100 [])).appendAll
        ((List.range 100).map (fun x : Nat => 100 - ((x : Int) + 1))) = .ok p ∧
      p.Reduce Max = 99) ∧
    (∃ p, (NewPointPolicy (List.replicate 100 [])).appendAll
        ((List.range 100).map (fun x : Nat => (x : Int) + 1)) = .ok p ∧
      p.Reduce Max = 100) := by
  refine ⟨?_, ?_, ?_⟩
  · intro T _ _ w
    exact ⟨Max_mem_le w, fun h => Max_nil w (List.flatten_eq_nil_iff.mpr h)⟩
  · obtain ⟨p, hp, _, hr⟩ := Reduce_full 100 (by decide)
      ((List.range 100).map (fun x : Nat => 100 - ((x : Int) + 1))) (by simp) Max
    refine ⟨p, hp, ?_⟩
    rw [hr]
    obtain ⟨hm, hle⟩ := Max_mem_le
      (((List.range 100).map (fun x : Nat => 100 - ((x : Int) + 1))).map (fun v => [v]))
      (by rw [flatten_singletons]; simp)
    rw [flatten_singletons] at hm hle
    have h1 := hle 99 (List.mem_map.mpr ⟨0, by simp, by simp⟩)
    obtain ⟨x, _, hx⟩ := List.mem_map.mp hm
    omega
  · obtain ⟨p, hp, _, hr⟩ := Reduce_full 100 (by decide)
      ((List.range 100).map (fun x : Nat => (x : Int) + 1)) (by simp) Max
    refine ⟨p, hp, ?_⟩
    rw [hr]
    obtain ⟨hm, hle⟩ := Max_mem_le
      (((List.range 100).map (fun x : Nat => (x : Int) + 1)).map (fun v => [v]))
      (by rw [flatten_singletons]; simp)
    rw [flatten_singletons] at hm hle
    have h1 := hle 100 (List.mem_map.mpr ⟨99, by simp, by simp⟩)
    obtain ⟨x, hx0, hx⟩ := List.mem_map.mp hm
    have := List.mem_range.mp hx0
    omega

/-- The maximum of a window whose first bucket is empty. -/
theorem Max_is_greatest_element_witness :
    Max ([[], [5, 2], [], [7]] : Window Int) ∈ ([[], [5, 2], [], [7]] : Window Int).flatten ∧
    ∀ y ∈ ([[], [5, 2], [], [7]] : Window Int).flatten,
      y ≤ Max ([[], [5, 2], [], [7]] : Window Int) :=
  (Max_is_greatest_element.1 Int [[], [5, 2], [], [7]]).1 (by decide)

/-! ## Queries on the time policy -/

theorem truncateBucket_eq_ok {T : Type} {w w1 : Window T} {i : Int}
    (h : truncateBucket w i = .ok w1) :
    0 ≤ i ∧ i < w.length ∧ w1 = w.set i.toNat [] := by
  by_cases hi : 0 ≤ i ∧ i < w.length
  · rw [truncateBucket_ok w i hi.1 hi.2] at h
    exact ⟨hi.1, hi.2, (Except.ok.inj h).symm⟩
  · simp [truncateBucket, readBucket, hi, bind, Except.bind] at h

theorem resetBucketsLoop_step {T : Type} {last N : Int} {n : Nat} {counter : Int}
    {window window' : Window T}
    (h : resetBucketsLoop last N (n + 1) counter window = .ok window') :
    N ≠ 0 ∧ 0 ≤ (counter + last).tmod N ∧ (counter + last).tmod N < window.length ∧
      resetBucketsLoop last N n (counter + 1)
        (window.set ((counter + last).tmod N).toNat []) = .ok window' := by
  by_cases hN : N = 0
  · simp [resetBucketsLoop, hN, bind, Except.bind, throw, throwThe, MonadExceptOf.throw] at h
  · simp only [resetBucketsLoop, hN, if_false, bind, Except.bind, pure, Except.pure] at h
    cases ht : truncateBucket window ((counter + last).tmod N) with
    | error e => simp only [ht, reduceCtorEq] at h
    | ok w1 =>
      obtain ⟨h0, h1, rfl⟩ := truncateBucket_eq_ok ht
      simp only [ht] at h
      exact ⟨hN, h0, h1, h⟩

theorem resetBucketsLoop_only_empties {T : Type} (last N : Int) :
    ∀ (n : Nat) (counter : Int) (window window' : Window T),
      resetBucketsLoop last N n counter window = .ok window' →
      window'.length = window.length ∧
      ∀ j : Nat, window'[j]? = window[j]? ∨ window'[j]? = some [] := by
  intro n
  induction n with
  | zero =>
    intro counter window window' h
    cases h
    exact ⟨rfl, fun j => Or.inl rfl⟩
  | succ n ih =>
    intro counter window window' h
    obtain ⟨_, h0, h1, hrest⟩ := resetBucketsLoop_step h
    obtain ⟨hlen, hget⟩ := ih _ _ _ hrest
    refine ⟨by simpa using hlen, fun j => ?_⟩
    rcases hget j with hj | hj
    · by_cases hij : ((counter + last).tmod N).toNat = j
      · right
        rw [hj, List.getElem?_set, if_pos hij, if_pos (by omega)]
      · left
        rw [hj, List.getElem?_set_ne hij]
    · exact Or.inr hj

theorem resetBucketsLoop_again {T : Type} (last N : Int) :
    ∀ (n : Nat) (counter : Int) (window window' : Window T),
      resetBucketsLoop last N n counter window = .ok window' →
      resetBucketsLoop last N n counter window' = .ok window' := by
  intro n
  induction n with
  | zero => intro counter window window' _; rfl
  | succ n ih =>
    intro counter window window' h
    obtain ⟨hN, h0, h1, hrest⟩ := resetBucketsLoop_step h
    obtain ⟨hlen, hget⟩ := resetBucketsLoop_only_empties last N _ _ _ _ hrest
    have hlen' : window'.length = window.length := by simpa using hlen
    have hlt : ((counter + last).tmod N).toNat < window.length := by omega
    have hempty : window'[((counter + last).tmod N).toNat]? = some [] := by
      rcases hget ((counter + last).tmod N).toNat with hj | hj
      · rw [hj, List.getElem?_set, if_pos rfl, if_pos hlt]
      · exact hj
    have hset : window'.set ((counter + last).tmod N).toNat [] = window' := by
      apply List.ext_getElem?
      intro j
      by_cases hij : ((counter + last).tmod N).toNat = j
      · rw [List.getElem?_set, if_pos hij, if_pos (by omega), ← hij, hempty]
      · rw [List.getElem?_set_ne hij]
    simp only [resetBucketsLoop, hN, if_false, bind, Except.bind, pure, Except.pure]
    rw [truncateBucket_ok window' _ h0 (by omega), hset]
    exact ih _ _ _ hrest

theorem resetBuckets_frame {T : Type} {w w' : TimePolicy T} {off : Int}
    (h : w.resetBuckets off = .ok w') :
    w' = { w with window := w'.window } ∧ w'.window.length = w.window.length ∧
      (∀ j : Nat, w'.window[j]? = w.window[j]? ∨ w'.window[j]? = some []) ∧
      w'.resetBuckets off = .ok w' := by
  simp only [TimePolicy.resetBuckets, bind, Except.bind, pure, Except.pure] at h
  cases hl : resetBucketsLoop w.lastWindowOffset w.numberOfBuckets
      (resetDistance w.lastWindowOffset w.numberOfBuckets off - 1).toNat 1 w.window with
  | error e => simp only [hl, reduceCtorEq] at h
  | ok win =>
    simp only [hl] at h
    cases h
    obtain ⟨hlen, hget⟩ := resetBucketsLoop_only_empties _ _ _ _ _ _ hl
    refine ⟨rfl, hlen, hget, ?_⟩
    simp only [TimePolicy.resetBuckets, bind, Except.bind, pure, Except.pure,
      resetBucketsLoop_again _ _ _ _ _ _ hl]

theorem resetWindow_frame {T : Type} (w : TimePolicy T) :
    w.resetWindow.window.length = w.window.length ∧
      (∀ j : Nat, w.resetWindow.window[j]? = w.window[j]? ∨
        w.resetWindow.window[j]? = some []) ∧
      w.resetWindow.resetWindow = w.resetWindow := by
  refine ⟨by simp [TimePolicy.resetWindow], fun j => ?_, by simp [TimePolicy.resetWindow]⟩
  by_cases hj : j < w.window.length
  · right; simp [TimePolicy.resetWindow, List.getElem?_replicate, hj]
  · left
    rw [List.getElem?_eq_none (by simp [TimePolicy.resetWindow]; omega),
      List.getElem?_eq_none (by omega)]

theorem keepConsistent_frame {T : Type} {w w' : TimePolicy T} {a off : Int}
    (h : w.keepConsistent a off = .ok w') :
    w'.bucketSizeNano = w.bucketSizeNano ∧ w'.numberOfBuckets = w.numberOfBuckets ∧
      w'.lastWindowOffset = w.lastWindowOffset ∧ w'.lastWindowTime = w.lastWindowTime ∧
      w'.window.length = w.window.length ∧
      (∀ j : Nat, w'.window[j]? = w.window[j]? ∨ w'.window[j]? = some []) ∧
      w'.keepConsistent a off = .ok w' := by
  by_cases h1 : w.numberOfBuckets < sub64 a w.lastWindowTime
  · rw [keepConsistent_full w a off h1] at h
    cases h
    obtain ⟨hlen, hget, hidem⟩ := resetWindow_frame w
    refine ⟨rfl, rfl, rfl, rfl, hlen, hget, ?_⟩
    rw [keepConsistent_full w.resetWindow a off h1, hidem]
  · by_cases h2 : a ≠ w.lastWindowTime ∧ sub64 a w.lastWindowTime < w.numberOfBuckets
    · rw [keepConsistent_missed w a off h2.1 h2.2] at h
      obtain ⟨heq, hlen, hget, hidem⟩ := resetBuckets_frame h
      have hf : w'.bucketSizeNano = w.bucketSizeNano ∧ w'.numberOfBuckets = w.numberOfBuckets ∧
          w'.lastWindowOffset = w.lastWindowOffset ∧ w'.lastWindowTime = w.lastWindowTime := by
        rw [heq]; exact ⟨rfl, rfl, rfl, rfl⟩
      refine ⟨hf.1, hf.2.1, hf.2.2.1, hf.2.2.2, hlen, hget, ?_⟩
      rw [keepConsistent_missed w' a off (by rw [hf.2.2.2]; exact h2.1)
        (by rw [hf.2.2.2, hf.2.1]; exact h2.2)]
      exact hidem
    · have h3 : ¬ (sub64 a w.lastWindowTime > w.numberOfBuckets) := h1
      have hw : w.keepConsistent a off = .ok w := by
        simp only [TimePolicy.keepConsistent, h3, if_false, h2, pure, Except.pure]
      rw [hw] at h
      cases h
      exact ⟨rfl, rfl, rfl, rfl, rfl, fun j => Or.inl rfl, hw⟩

theorem keepConsistent_total {T : Type} (w : TimePolicy T) (a off : Int)
    (hN : 1 ≤ w.numberOfBuckets) (hlen : (w.window.length : Int) = w.numberOfBuckets)
    (hl : 0 ≤ w.lastWindowOffset) : ∃ w', w.keepConsistent a off = .ok w' := by
  by_cases h1 : w.numberOfBuckets < sub64 a w.lastWindowTime
  · exact ⟨_, keepConsistent_full w a off h1⟩
  · by_cases h2 : a ≠ w.lastWindowTime ∧ sub64 a w.lastWindowTime < w.numberOfBuckets
    · rw [keepConsistent_missed w a off h2.1 h2.2]
      obtain ⟨window', hrun, _, _⟩ :=
        resetBucketsLoop_spec w.lastWindowOffset w.numberOfBuckets (by omega) hl
          ((resetDistance w.lastWindowOffset w.numberOfBuckets off) - 1).toNat 1
          w.window (by omega) hlen
      exact ⟨{ w with window := window' }, by
        simp only [TimePolicy.resetBuckets, hrun, bind, Except.bind, pure, Except.pure]⟩
    · have h3 : ¬ (sub64 a w.lastWindowTime > w.numberOfBuckets) := h1
      exact ⟨w, by
        simp only [TimePolicy.keepConsistent, h3, if_false, h2, pure, Except.pure]⟩

theorem selectBucket_congr {T : Type} {w w' : TimePolicy T} (now : Int)
    (hD : w'.bucketSizeNano = w.bucketSizeNano) (hN : w'.numberOfBuckets = w.numberOfBuckets) :
    w'.selectBucket now = w.selectBucket now := by
  simp only [TimePolicy.selectBucket, hD, hN]

theorem Count_eq_ok {T : Type} {w w' : TimePolicy T} {now : Int} {r : Nat}
    (h : w.Count now = .ok (r, w')) :
    ∃ a off, w.selectBucket now = .ok (a, off) ∧ w.keepConsistent a off = .ok w' ∧
      r = sumLengths w'.window := by
  simp only [TimePolicy.Count, bind, Except.bind, pure, Except.pure] at h
  cases hs : w.selectBucket now with
  | error e => simp only [hs, reduceCtorEq] at h
  | ok p =>
    obtain ⟨a, off⟩ := p
    simp only [hs] at h
    cases hk : w.keepConsistent a off with
    | error e => simp only [hk, reduceCtorEq] at h
    | ok w1 =>
      simp only [hk, Except.ok.injEq, Prod.mk.injEq] at h
      obtain ⟨h1, rfl⟩ := h
      exact ⟨a, off, rfl, hk, h1.symm⟩

theorem Reduce_eq_ok {T : Type} {w w' : TimePolicy T} {f : Window T → T} {now : Int} {r : T}
    (h : w.Reduce f now = .ok (r, w')) :
    ∃ a off, w.selectBucket now = .ok (a, off) ∧ w.keepConsistent a off = .ok w' ∧
      r = f w'.window := by
  simp only [TimePolicy.Reduce, bind, Except.bind, pure, Except.pure] at h
  cases hs : w.selectBucket now with
  | error e => simp only [hs, reduceCtorEq] at h
  | ok p =>
    obtain ⟨a, off⟩ := p
    simp only [hs] at h
    cases hk : w.keepConsistent a off with
    | error e => simp only [hk, reduceCtorEq] at h
    | ok w1 =>
      simp only [hk, Except.ok.injEq, Prod.mk.injEq] at h
      obtain ⟨h1, rfl⟩ := h
      exact ⟨a, off, rfl, hk, h1.symm⟩

/-- C19. Whenever `Count` or `Reduce(f)` of the time policy returns, at any clock reading
and from any state, the state it leaves has the same `lastWindowTime`,
`lastWindowOffset`, bucket duration and bucket count, the same number of buckets, and
every bucket is either as before or empty; running the same query again at the same
clock reading returns the same result and leaves the same state.  On a state with
`N ≥ 1` buckets, `len(window) = N`, a non-zero bucket duration and a non-negative
`lastWindowOffset`, both queries do return. -/
theorem queries_do_not_record_time {T : Type} (w : TimePolicy T) (f : Window T → T)
    (now : Int) :
    (∀ (r : Nat) (w' : TimePolicy T), w.Count now = .ok (r, w') →
      w'.lastWindowTime = w.lastWindowTime ∧ w'.lastWindowOffset = w.lastWindowOffset ∧
      w'.bucketSizeNano = w.bucketSizeNano ∧ w'.numberOfBuckets = w.numberOfBuckets ∧
      w'.window.length = w.window.length ∧
      (∀ j : Nat, w'.window[j]? = w.window[j]? ∨ w'.window[j]? = some []) ∧
      w'.Count now = .ok (r, w')) ∧
    (∀ (r : T) (w' : TimePolicy T), w.Reduce f now = .ok (r, w') →
      w'.lastWindowTime = w.lastWindowTime ∧ w'.lastWindowOffset = w.lastWindowOffset ∧
      w'.bucketSizeNano = w.bucketSizeNano ∧ w'.numberOfBuckets = w.numberOfBuckets ∧
      w'.window.length = w.window.length ∧
      (∀ j : Nat, w'.window[j]? = w.window[j]? ∨ w'.window[j]? = some []) ∧
      w'.Reduce f now = .ok (r, w')) ∧
    (1 ≤ w.numberOfBuckets → (w.window.length : Int) = w.numberOfBuckets →
      w.bucketSizeNano ≠ 0 → 0 ≤ w.lastWindowOffset →
      (∃ r w', w.Count now = .ok (r, w')) ∧ (∃ r w', w.Reduce f now = .ok (r, w'))) := by
  refine ⟨?_, ?_, ?_⟩
  · intro r w' h
    obtain ⟨a, off, hs, hk, hr⟩ := Count_eq_ok h
    obtain ⟨hD, hN, hlo, hlt, hlen, hget, hidem⟩ := keepConsistent_frame hk
    refine ⟨hlt, hlo, hD, hN, hlen, hget, ?_⟩
    simp only [TimePolicy.Count, selectBucket_congr now hD hN, hs, bind, Except.bind, hidem,
      pure, Except.pure, hr]
  · intro r w' h
    obtain ⟨a, off, hs, hk, hr⟩ := Reduce_eq_ok h
    obtain ⟨hD, hN, hlo, hlt, hlen, hget, hidem⟩ := keepConsistent_frame hk
    refine ⟨hlt, hlo, hD, hN, hlen, hget, ?_⟩
    simp only [TimePolicy.Reduce, selectBucket_congr now hD hN, hs, bind, Except.bind, hidem,
      pure, Except.pure, hr]
  · intro hN hlen hD hl
    obtain ⟨w', hk⟩ := keepConsistent_total w (div64 now w.bucketSizeNano)
      ((div64 now w.bucketSizeNano).tmod w.numberOfBuckets) hN hlen hl
    exact ⟨⟨_, _, Count_of_keepConsistent w w' now hD (by omega) hk⟩,
      ⟨_, _, Reduce_of_keepConsistent w w' f now hD (by omega) hk⟩⟩

/-- A count on a three-bucket state two quanta after the last append: the bucket in
between is emptied, the time and the offset stay, and the second count agrees. -/
theorem queries_do_not_record_time_witness :
    TimePolicy.Count (⟨10, 3, [[1], [2], [3]], 0, 3⟩ : TimePolicy Int) 50 =
      .ok (2, ⟨10, 3, [[1], [], [3]], 0, 3⟩) ∧
    TimePolicy.Count (⟨10, 3, [[1], [], [3]], 0, 3⟩ : TimePolicy Int) 50 =
      .ok (2, ⟨10, 3, [[1], [], [3]], 0, 3⟩) :=
  ⟨rfl, ((queries_do_not_record_time (⟨10, 3, [[1], [2], [3]], 0, 3⟩ : TimePolicy Int)
    (fun _ => 0) 50).1 2 ⟨10, 3, [[1], [], [3]], 0, 3⟩ rfl).2.2.2.2.2.2⟩

/-! ## The code's staleness tests against the specification's procedure -/

theorem div64_range (t D : Int) (h0 : 0 ≤ t) (h1 : t < 2 ^ 63) (hD : 0 < D) :
    0 ≤ div64 t D ∧ div64 t D < 2 ^ 63 ∧ div64 t D = t / D := by
  have h2 : 0 ≤ t / D := Int.ediv_nonneg h0 (by omega)
  have h3 : t / D ≤ t := Int.ediv_le_self _ h0
  have h4 : div64 t D = t / D := by
    rw [div64, Int.tdiv_eq_ediv h0 (by omega), wrap64_eq_self (by omega) (by omega)]
  rw [h4]
  exact ⟨h2, by omega, rfl⟩

theorem sub64_eq_sub (a b : Int) (ha : 0 ≤ a ∧ a < 2 ^ 63) (hb : 0 ≤ b ∧ b < 2 ^ 63) :
    sub64 a b = a - b := by
  rw [sub64, wrap64_eq_self (by omega) (by omega)]

theorem selectBucket_eq_ok {T : Type} {w : TimePolicy T} {now a off : Int}
    (h : w.selectBucket now = .ok (a, off)) :
    w.bucketSizeNano ≠ 0 ∧ w.numberOfBuckets ≠ 0 ∧ a = div64 now w.bucketSizeNano ∧
      off = a.tmod w.numberOfBuckets := by
  by_cases hD : w.bucketSizeNano = 0
  · simp [TimePolicy.selectBucket, hD, bind, Except.bind, throw, throwThe,
      MonadExceptOf.throw] at h
  · by_cases hN : w.numberOfBuckets = 0
    · simp [TimePolicy.selectBucket, hD, hN, bind, Except.bind, pure, Except.pure, throw,
        throwThe, MonadExceptOf.throw] at h
    · rw [selectBucket_ok w now hD hN] at h
      simp only [Except.ok.injEq, Prod.mk.injEq] at h
      exact ⟨hD, hN, h.1.symm, by rw [← h.2, h.1]⟩

theorem writeBucket_length {T : Type} {w w1 : Window T} {i : Int} {b : List T}
    (h : writeBucket w i b = .ok w1) : w1.length = w.length := by
  by_cases hi : 0 ≤ i ∧ i < w.length
  · rw [writeBucket_ok w i b hi.1 hi.2] at h
    cases h
    simp
  · simp [writeBucket, hi] at h

theorem Append_eq_ok {T : Type} {w w' : TimePolicy T} {v : T} {t : Int}
    (h : w.AppendWithTimestamp v t = .ok w') :
    ∃ a off w1, w.selectBucket t = .ok (a, off) ∧ w.keepConsistent a off = .ok w1 ∧
      w'.lastWindowTime = a ∧ w'.lastWindowOffset = off ∧
      w'.bucketSizeNano = w1.bucketSizeNano ∧ w'.numberOfBuckets = w1.numberOfBuckets ∧
      w'.window.length = w1.window.length := by
  simp only [TimePolicy.AppendWithTimestamp, bind, Except.bind, pure, Except.pure] at h
  cases hs : w.selectBucket t with
  | error e => simp only [hs, reduceCtorEq] at h
  | ok p =>
    obtain ⟨a, off⟩ := p
    simp only [hs] at h
    cases hk : w.keepConsistent a off with
    | error e => simp only [hk, reduceCtorEq] at h
    | ok w1 =>
      simp only [hk] at h
      refine ⟨a, off, w1, rfl, hk, ?_⟩
      split at h
      · cases hw : writeBucket w1.window off [v] with
        | error e => simp only [hw, reduceCtorEq] at h
        | ok win =>
          simp only [hw] at h
          cases h
          exact ⟨rfl, rfl, rfl, rfl, writeBucket_length hw⟩
      · cases hr : readBucket w1.window off with
        | error e => simp only [hr, reduceCtorEq] at h
        | ok b =>
          simp only [hr] at h
          cases hw : writeBucket w1.window off (b ++ [v]) with
          | error e => simp only [hw, reduceCtorEq] at h
          | ok win =>
            simp only [hw] at h
            cases h
            exact ⟨rfl, rfl, rfl, rfl, writeBucket_length hw⟩

theorem Reachable_inv {T : Type} {N : Nat} {D : Int} (hN : 1 ≤ N) (hD : 0 < D)
    {w : TimePolicy T} (h : Reachable N D w) :
    w.bucketSizeNano = D ∧ w.numberOfBuckets = N ∧ w.window.length = N ∧
      0 ≤ w.lastWindowTime ∧ w.lastWindowTime < 2 ^ 63 ∧
      w.lastWindowOffset = w.lastWindowTime % N := by
  induction h with
  | fresh => simp [NewTimePolicy]
  | append v t _ h0 h1 hrun ih =>
    obtain ⟨hD', hN', hlen, hl0, hl1, hoff⟩ := ih
    obtain ⟨a, off, w1, hs, hk, hlt, hlo, hD1, hN1, hlen1⟩ := Append_eq_ok hrun
    obtain ⟨kD, kN, _, _, klen, _, _⟩ := keepConsistent_frame hk
    obtain ⟨_, _, ha, hoff'⟩ := selectBucket_eq_ok hs
    rw [hD'] at ha
    obtain ⟨r0, r1, _⟩ := div64_range t D h0 h1 hD
    have hnn : 0 ≤ a := by rw [ha]; exact r0
    refine ⟨by rw [hD1, kD, hD'], by rw [hN1, kN, hN'], by rw [hlen1, klen, hlen],
      by rw [hlt]; exact hnn, by rw [hlt, ha]; exact r1, ?_⟩
    rw [hlo, hlt, hoff', hN']
    exact Int.tmod_eq_emod hnn (by omega)
  | reduce f now r _ _ _ hrun ih =>
    obtain ⟨hD', hN', hlen, hl0, hl1, hoff⟩ := ih
    obtain ⟨a, off, _, hk, _⟩ := Reduce_eq_ok hrun
    obtain ⟨kD, kN, klo, klt, klen, _, _⟩ := keepConsistent_frame hk
    exact ⟨by rw [kD, hD'], by rw [kN, hN'], by rw [klen, hlen], by rw [klt]; exact hl0,
      by rw [klt]; exact hl1, by rw [klo, klt]; exact hoff⟩
  | count now r _ _ _ hrun ih =>
    obtain ⟨hD', hN', hlen, hl0, hl1, hoff⟩ := ih
    obtain ⟨a, off, _, hk, _⟩ := Count_eq_ok hrun
    obtain ⟨kD, kN, klo, klt, klen, _, _⟩ := keepConsistent_frame hk
    exact ⟨by rw [kD, hD'], by rw [kN, hN'], by rw [klen, hlen], by rw [klt]; exact hl0,
      by rw [klt]; exact hl1, by rw [klo, klt]; exact hoff⟩

theorem resetBucketsLoop_eq_foldl {T : Type} (last N : Int) (hN : 0 < N) (hl : 0 ≤ last) :
    ∀ (n : Nat) (counter : Int) (window : Window T), 0 ≤ counter →
      (window.length : Int) = N →
      resetBucketsLoop last N n counter window =
        .ok ((List.range n).foldl
          (fun win (c : Nat) => win.set ((last + (counter + (c : Int))) % N).toNat [])
          window) := by
  intro n
  induction n with
  | zero => intro counter window _ _; rfl
  | succ n ih =>
    intro counter window hc hlen
    have hoff : (counter + last).tmod N = (counter + last) % N :=
      Int.tmod_eq_emod (by omega) (by omega)
    have h0 : 0 ≤ (counter + last) % N := Int.emod_nonneg _ (by omega)
    have h1 : (counter + last) % N < N := Int.emod_lt_of_pos _ hN
    have hne : N ≠ 0 := by omega
    simp only [resetBucketsLoop, hne, if_false, hoff, bind, Except.bind, pure, Except.pure]
    rw [truncateBucket_ok window _ h0 (by omega)]
    show resetBucketsLoop last N n (counter + 1) _ = _
    rw [ih (counter + 1) _ (by omega) (by simpa using hlen),
      List.range_succ_eq_map, List.foldl_cons, List.foldl_map]
    have e1 : last + (counter + ((0 : Nat) : Int)) = counter + last := by
      push_cast; ring
    have e2 : ∀ c : Nat, last + (counter + ((c + 1 : Nat) : Int)) =
        last + (counter + 1 + (c : Int)) := by
      intro c; push_cast; ring
    simp only [e1, e2, Nat.succ_eq_add_one]

theorem resetBuckets_eq_spec {T : Type} (w : TimePolicy T) (off : Int)
    (hN : 1 ≤ w.numberOfBuckets) (hlen : (w.window.length : Int) = w.numberOfBuckets)
    (hl : 0 ≤ w.lastWindowOffset) :
    w.resetBuckets off = .ok
      { w with
        window := specClearBetween w.window w.numberOfBuckets w.lastWindowOffset
          (specDistance w.numberOfBuckets w.lastWindowOffset off) } := by
  have hd : resetDistance w.lastWindowOffset w.numberOfBuckets off =
      specDistance w.numberOfBuckets w.lastWindowOffset off := by
    unfold resetDistance specDistance
    split <;> ring
  have e : ∀ c : Nat, w.lastWindowOffset + (1 + (c : Int)) =
      w.lastWindowOffset + ((c : Int) + 1) := by
    intro c; ring
  simp only [TimePolicy.resetBuckets, bind, Except.bind, pure, Except.pure,
    resetBucketsLoop_eq_foldl _ _ (show 0 < w.numberOfBuckets by omega) hl _ 1 w.window
      (by omega) hlen, hd, specClearBetween, e]

/-- C17. On every state reached from `NewTimePolicy(NewWindow(N), D)`, `N ≥ 1`, `D > 0`, by
`AppendWithTimestamp`, `Reduce` and `Count` calls at `int64` times at or after the epoch,
`lastWindowOffset = lastWindowTime mod N`, and for every quantum `a ≥ 0` of the `int64`
range `keepConsistent(a, a mod N)` as coded returns normally with exactly the state
that the three-case procedure of the specification gives. -/
theorem keepConsistent_refines_spec {T : Type} (N : Nat) (D : Int) (w : TimePolicy T)
    (hN : 1 ≤ N) (hD : 0 < D) (hw : Reachable N D w) :
    w.lastWindowOffset = w.lastWindowTime % N ∧
    ∀ a : Int, 0 ≤ a → a < 2 ^ 63 →
      w.keepConsistent a (a % N) = .ok (specKeepConsistent w a (a % N)) := by
  obtain ⟨_, hN', hlen, hl0, hl1, hoff⟩ := Reachable_inv hN hD hw
  refine ⟨hoff, fun a ha0 ha1 => ?_⟩
  have hsub : sub64 a w.lastWindowTime = a - w.lastWindowTime :=
    sub64_eq_sub a _ ⟨ha0, ha1⟩ ⟨hl0, hl1⟩
  have hlo0 : 0 ≤ w.lastWindowOffset := by
    rw [hoff]; exact Int.emod_nonneg _ (by omega)
  by_cases h1 : a - w.lastWindowTime > w.numberOfBuckets
  · rw [keepConsistent_full w a _ (by rw [hsub]; exact h1)]
    simp only [specKeepConsistent, h1, if_true, TimePolicy.resetWindow, List.take_zero]
  · by_cases h2 : a ≠ w.lastWindowTime
    · simp only [specKeepConsistent, h1, if_false, h2, ne_eq, not_false_eq_true, if_true]
      by_cases h3 : a - w.lastWindowTime < w.numberOfBuckets
      · rw [keepConsistent_missed w a _ h2 (by rw [hsub]; exact h3)]
        exact resetBuckets_eq_spec w _ (by omega) (by omega) hlo0
      · have h4 : a - w.lastWindowTime = w.numberOfBuckets := by omega
        rw [keepConsistent_exact w a _ (by rw [hsub]; exact h4)]
        have ha : a = w.lastWindowTime + N := by omega
        have hd : specDistance w.numberOfBuckets w.lastWindowOffset (a % N) = 0 := by
          rw [hoff, ha, Int.add_emod_self]
          simp [specDistance]
        rw [hd]
        rfl
    · have h2' : a = w.lastWindowTime := not_not.mp h2
      subst h2'
      rw [keepConsistent_same w _ (by omega)]
      simp only [specKeepConsistent, h1, if_false, ne_eq, not_true_eq_false]

/-- The refinement at the state reached by one append in quantum 4 of a three-bucket
ring. -/
theorem keepConsistent_refines_spec_witness :
    TimePolicy.keepConsistent (⟨10, 3, [[], [7], []], 1, 4⟩ : TimePolicy Int) 6 (6 % 3) =
      .ok (specKeepConsistent (⟨10, 3, [[], [7], []], 1, 4⟩ : TimePolicy Int) 6 (6 % 3)) :=
  (keepConsistent_refines_spec (T := Int) 3 10 ⟨10, 3, [[], [7], []], 1, 4⟩ (by decide)
    (by decide) (Reachable.append 7 40 Reachable.fresh (by decide) (by decide) rfl)).2 6
    (by decide) (by decide)

/-! ## The window of the time policy after a run of appends -/

theorem emod_eq_imp_eq (x y N : Int) (h : x % N = y % N) (h1 : -N < x - y) (h2 : x - y < N) :
    x = y := by
  have hd : N ∣ x - y := Int.dvd_of_emod_eq_zero (Int.emod_eq_emod_iff_emod_sub_eq_zero.mp h)
  have : x - y = 0 := Int.eq_zero_of_abs_lt_dvd hd (abs_lt.mpr ⟨h1, h2⟩)
  omega

theorem valuesAt_append {T : Type} (N : Nat) (D lo hi : Int) (xs ys : List (T × Int))
    (i : Nat) :
    valuesAt N D lo hi (xs ++ ys) i = valuesAt N D lo hi xs i ++ valuesAt N D lo hi ys i := by
  simp [valuesAt]

theorem valuesAt_singleton_pos {T : Type} (N : Nat) (D lo hi : Int) (v : T) (t : Int) (i : Nat)
    (h : div64 t D % (N : Int) = (i : Int) ∧ lo < div64 t D ∧ div64 t D ≤ hi) :
    valuesAt N D lo hi [(v, t)] i = [v] := by
  simp [valuesAt, h]

theorem valuesAt_singleton_neg {T : Type} (N : Nat) (D lo hi : Int) (v : T) (t : Int) (i : Nat)
    (h : ¬ (div64 t D % (N : Int) = (i : Int) ∧ lo < div64 t D ∧ div64 t D ≤ hi)) :
    valuesAt N D lo hi [(v, t)] i = [] := by
  simp only [valuesAt, List.filter_cons, decide_eq_true_eq, h, if_false, List.filter_nil,
    List.map_nil]

theorem valuesAt_eq_nil {T : Type} (N : Nat) (D lo hi : Int) (pts : List (T × Int)) (i : Nat)
    (h : ∀ p ∈ pts, ¬ (div64 p.2 D % (N : Int) = (i : Int) ∧ lo < div64 p.2 D ∧
      div64 p.2 D ≤ hi)) :
    valuesAt N D lo hi pts i = [] := by
  simp only [valuesAt, List.map_eq_nil_iff, List.filter_eq_nil_iff, decide_eq_true_eq]
  exact h

theorem valuesAt_congr {T : Type} (N : Nat) (D lo hi lo' hi' : Int) (pts : List (T × Int))
    (i : Nat)
    (h : ∀ p ∈ pts, (div64 p.2 D % (N : Int) = (i : Int) ∧ lo < div64 p.2 D ∧
        div64 p.2 D ≤ hi) ↔
      (div64 p.2 D % (N : Int) = (i : Int) ∧ lo' < div64 p.2 D ∧ div64 p.2 D ≤ hi')) :
    valuesAt N D lo hi pts i = valuesAt N D lo' hi' pts i := by
  simp only [valuesAt]
  congr 1
  apply List.filter_congr
  intro p hp
  simp only [decide_eq_decide]
  exact h p hp

theorem append_step_same {T : Type} (N : Nat) (D L t : Int) (v : T) (win : Window T)
    (done : List (T × Int)) (hN : 1 ≤ N) (hD : D ≠ 0) (hL : 0 ≤ L)
    (ha : div64 t D = L) (hlen : win.length = N)
    (hinv : ∀ i : Nat, i < N → win[i]? = some (valuesAt N D (L - N) L done i)) :
    ∃ win', TimePolicy.AppendWithTimestamp ⟨D, N, win, L % N, L⟩ v t =
        .ok ⟨D, N, win', L % N, L⟩ ∧ win'.length = N ∧
      ∀ i : Nat, i < N →
        win'[i]? = some (valuesAt N D (L - N) L (done ++ [(v, t)]) i) := by
  have hN0 : (N : Int) ≠ 0 := by omega
  have h0 : 0 ≤ L % (N : Int) := Int.emod_nonneg _ hN0
  have h1 : L % (N : Int) < N := Int.emod_lt_of_pos _ (by omega)
  have htm : L.tmod (N : Int) = L % N := Int.tmod_eq_emod hL (by omega)
  have hlt : (L % (N : Int)).toNat < N := by omega
  have hcast : (((L % (N : Int)).toNat : Nat) : Int) = L % N := Int.toNat_of_nonneg h0
  have hstep := append_of_keepConsistent
    (⟨D, N, win, L % N, L⟩ : TimePolicy T) v t hD hN0
    (by simpa only [ha, htm] using keepConsistent_same
          (⟨D, N, win, L % N, L⟩ : TimePolicy T) (L % N) (by simp))
    (by simp only [ha, htm]; exact h0)
    (by simp only [ha, htm]; omega)
  simp only [ha, htm, ne_eq, not_true_eq_false, if_false] at hstep
  have hg : win.getD (L % (N : Int)).toNat [] =
      valuesAt N D (L - N) L done (L % (N : Int)).toNat := by
    rw [List.getD_eq_getElem?_getD, hinv _ hlt]; rfl
  rw [hg] at hstep
  refine ⟨_, hstep, by simpa using hlen, ?_⟩
  intro i hi
  rw [valuesAt_append]
  by_cases hio : (L % (N : Int)).toNat = i
  · subst hio
    rw [List.getElem?_set, if_pos rfl, if_pos (by omega),
      valuesAt_singleton_pos N D _ _ v t _ ⟨by rw [ha, hcast], by rw [ha]; omega,
        by rw [ha]⟩]
  · rw [List.getElem?_set_ne hio, hinv i hi,
      valuesAt_singleton_neg N D _ _ v t _ (by rw [ha]; intro h; exact hio (by omega)),
      List.append_nil]

theorem append_step_stale {T : Type} (N : Nat) (D L a t : Int) (v : T) (win : Window T)
    (done : List (T × Int)) (hN : 1 ≤ N) (hD : D ≠ 0) (hL : 0 ≤ L)
    (ha : div64 t D = a) (ha1 : a < 2 ^ 63) (hgap : (N : Int) < a - L)
    (hlen : win.length = N) (hdone : ∀ p ∈ done, div64 p.2 D ≤ L) :
    ∃ win', TimePolicy.AppendWithTimestamp ⟨D, N, win, L % N, L⟩ v t =
        .ok ⟨D, N, win', a % N, a⟩ ∧ win'.length = N ∧
      ∀ i : Nat, i < N →
        win'[i]? = some (valuesAt N D (a - N) a (done ++ [(v, t)]) i) := by
  have hN0 : (N : Int) ≠ 0 := by omega
  have ha0 : 0 ≤ a := by omega
  have h0 : 0 ≤ a % (N : Int) := Int.emod_nonneg _ hN0
  have h1 : a % (N : Int) < N := Int.emod_lt_of_pos _ (by omega)
  have htm : a.tmod (N : Int) = a % N := Int.tmod_eq_emod ha0 (by omega)
  have hlt : (a % (N : Int)).toNat < N := by omega
  have hcast : (((a % (N : Int)).toNat : Nat) : Int) = a % N := Int.toNat_of_nonneg h0
  have hsub : sub64 a L = a - L := by
    rw [sub64, wrap64_eq_self (by omega) (by omega)]
  have hrw : (TimePolicy.resetWindow (⟨D, N, win, L % N, L⟩ : TimePolicy T)).window =
      List.replicate N [] := by
    simp [TimePolicy.resetWindow, hlen]
  have hstep := append_of_keepConsistent
    (⟨D, N, win, L % N, L⟩ : TimePolicy T) v t hD hN0
    (by simpa only [ha, htm] using keepConsistent_full
          (⟨D, N, win, L % N, L⟩ : TimePolicy T) a (a % N) (by rw [hsub]; exact hgap))
    (by simp only [ha, htm]; exact h0)
    (by simp only [ha, htm, hrw, List.length_replicate]; omega)
  simp only [ha, htm, hrw] at hstep
  have hg : (List.replicate N ([] : List T)).getD (a % (N : Int)).toNat [] = [] := by
    simp [List.getD_eq_getElem?_getD, List.getElem?_replicate, hlt]
  have hb : (if (TimePolicy.resetWindow (⟨D, N, win, L % N, L⟩ : TimePolicy T)).lastWindowOffset
      ≠ a % N then [v] else (List.replicate N ([] : List T)).getD (a % (N : Int)).toNat []
        ++ [v]) = [v] := by
    rw [hg]; split <;> rfl
  rw [hb] at hstep
  refine ⟨_, hstep, by simp, ?_⟩
  intro i hi
  have hnil : valuesAt N D (a - N) a done i = [] :=
    valuesAt_eq_nil N D _ _ done i (fun p hp h => by
      have := hdone p hp
      omega)
  rw [valuesAt_append, hnil, List.nil_append]
  by_cases hio : (a % (N : Int)).toNat = i
  · subst hio
    rw [List.getElem?_set, if_pos rfl, if_pos (by simpa using hlt),
      valuesAt_singleton_pos N D _ _ v t _ ⟨by rw [ha, hcast], by rw [ha]; omega,
        by rw [ha]⟩]
  · rw [List.getElem?_set_ne hio, List.getElem?_replicate, if_pos hi,
      valuesAt_singleton_neg N D _ _ v t _ (by rw [ha]; intro h; exact hio (by omega))]

theorem cleared_iff (N : Nat) (L a : Int) (i : Nat) (hLa : L < a)
    (hgap : a - L < N) :
    (∃ c : Int, 1 ≤ c ∧ c < (a % (N : Int) - L % (N : Int)) % (N : Int) ∧
        (L % (N : Int) + c) % (N : Int) = (i : Int)) ↔
      ∃ c : Int, 1 ≤ c ∧ c < a - L ∧ (L + c) % (N : Int) = (i : Int) := by
  have hd : (a % (N : Int) - L % (N : Int)) % (N : Int) = a - L := by
    rw [← Int.sub_emod, Int.emod_eq_of_lt (by omega) hgap]
  simp only [hd, Int.emod_add_emod]

theorem append_step_missed {T : Type} (N : Nat) (D L a t : Int) (v : T) (win : Window T)
    (done : List (T × Int)) (hN : 1 ≤ N) (hD : D ≠ 0) (hL : 0 ≤ L)
    (ha : div64 t D = a) (ha1 : a < 2 ^ 63) (hLa : L < a) (hgap : a - L < N)
    (hlen : win.length = N) (hdone : ∀ p ∈ done, div64 p.2 D ≤ L)
    (hinv : ∀ i : Nat, i < N → win[i]? = some (valuesAt N D (L - N) L done i)) :
    ∃ win', TimePolicy.AppendWithTimestamp ⟨D, N, win, L % N, L⟩ v t =
        .ok ⟨D, N, win', a % N, a⟩ ∧ win'.length = N ∧
      ∀ i : Nat, i < N →
        win'[i]? = some (valuesAt N D (a - N) a (done ++ [(v, t)]) i) := by
  have hN0 : (N : Int) ≠ 0 := by omega
  have ha0 : 0 ≤ a := by omega
  have h0 : 0 ≤ a % (N : Int) := Int.emod_nonneg _ hN0
  have h1 : a % (N : Int) < N := Int.emod_lt_of_pos _ (by omega)
  have hl0 : 0 ≤ L % (N : Int) := Int.emod_nonneg _ hN0
  have hl1 : L % (N : Int) < N := Int.emod_lt_of_pos _ (by omega)
  have htm : a.tmod (N : Int) = a % N := Int.tmod_eq_emod ha0 (by omega)
  have hlt : (a % (N : Int)).toNat < N := by omega
  have hcast : (((a % (N : Int)).toNat : Nat) : Int) = a % N := Int.toNat_of_nonneg h0
  have hsub : sub64 a L = a - L := by
    rw [sub64, wrap64_eq_self (by omega) (by omega)]
  have hne : L % (N : Int) ≠ a % (N : Int) := by
    intro h
    have := emod_eq_imp_eq L a N h (by omega) (by omega)
    omega
  obtain ⟨window1, hrun, hlen1, hget⟩ := resetBuckets_spec
    (⟨D, N, win, L % N, L⟩ : TimePolicy T) (a % N) (by simp; omega) (by simp [hlen])
    ⟨hl0, hl1⟩ ⟨h0, h1⟩
  simp only at hrun hlen1 hget
  have hstep := append_of_keepConsistent
    (⟨D, N, win, L % N, L⟩ : TimePolicy T) v t hD hN0
    (by
      simp only [ha, htm]
      rw [keepConsistent_missed _ a (a % N) (by simp only; omega)
        (by simp only; rw [hsub]; exact hgap)]
      exact hrun)
    (by simp only [ha, htm]; exact h0)
    (by simp only [ha, htm]; omega)
  simp only [ha, htm, ne_eq, hne, not_false_eq_true, if_true] at hstep
  refine ⟨_, hstep, by simp only [List.length_set]; omega, ?_⟩
  intro i hi
  rw [valuesAt_append]
  by_cases hio : (a % (N : Int)).toNat = i
  · subst hio
    have hnil : valuesAt N D (a - N) a done (a % (N : Int)).toNat = [] :=
      valuesAt_eq_nil N D _ _ done _ (fun p hp h => by
        have hq := hdone p hp
        rw [hcast] at h
        have := emod_eq_imp_eq _ _ N h.1 (by omega) (by omega)
        omega)
    rw [List.getElem?_set, if_pos rfl, if_pos (by omega), hnil, List.nil_append,
      valuesAt_singleton_pos N D _ _ v t _ ⟨by rw [ha, hcast], by rw [ha]; omega,
        by rw [ha]⟩]
  · have hio' : a % (N : Int) ≠ (i : Int) := by
      intro h; exact hio (by omega)
    rw [List.getElem?_set_ne hio,
      valuesAt_singleton_neg N D _ _ v t _ (by rw [ha]; intro h; exact hio' h.1),
      List.append_nil]
    have hi' : i < win.length := by omega
    by_cases hex : ∃ c : Int, 1 ≤ c ∧ c < a - L ∧ (L + c) % (N : Int) = (i : Int)
    · rw [((hget i hi').1 ((cleared_iff N L a i hLa hgap).mpr hex))]
      obtain ⟨c, hc1, hc2, hc3⟩ := hex
      rw [valuesAt_eq_nil N D _ _ done i (fun p hp h => by
        have hq := hdone p hp
        have := emod_eq_imp_eq _ _ N (h.1.trans hc3.symm) (by omega) (by omega)
        omega)]
    · rw [((hget i hi').2 (fun h => hex ((cleared_iff N L a i hLa hgap).mp h))),
        hinv i hi]
      congr 1
      apply valuesAt_congr
      intro p hp
      have hq := hdone p hp
      constructor
      · rintro ⟨hm, hlo, _⟩
        refine ⟨hm, ?_, by omega⟩
        by_contra hcon
        have hcase : div64 p.2 D + N - L < a - L ∨ div64 p.2 D + N = a := by omega
        rcases hcase with hc | hc
        · apply hex
          refine ⟨div64 p.2 D + N - L, by omega, hc, ?_⟩
          have : L + (div64 p.2 D + N - L) = div64 p.2 D + N := by ring
          rw [this, Int.add_emod_self, hm]
        · apply hio'
          rw [← hc, Int.add_emod_self, hm]
      · rintro ⟨hm, hlo, _⟩
        exact ⟨hm, by omega, hq⟩

theorem append_step {T : Type} (N : Nat) (D L a t : Int) (v : T) (win : Window T)
    (done : List (T × Int)) (hN : 1 ≤ N) (hD : D ≠ 0) (hL : 0 ≤ L)
    (ha : div64 t D = a) (ha1 : a < 2 ^ 63) (hLa : L ≤ a)
    (hgap : a - L ≠ N) (hlen : win.length = N)
    (hdone : ∀ p ∈ done, div64 p.2 D ≤ L)
    (hinv : ∀ i : Nat, i < N → win[i]? = some (valuesAt N D (L - N) L done i)) :
    ∃ win', TimePolicy.AppendWithTimestamp ⟨D, N, win, L % N, L⟩ v t =
        .ok ⟨D, N, win', a % N, a⟩ ∧ win'.length = N ∧
      ∀ i : Nat, i < N →
        win'[i]? = some (valuesAt N D (a - N) a (done ++ [(v, t)]) i) := by
  rcases lt_trichotomy (a - L) (N : Int) with h | h | h
  · rcases eq_or_lt_of_le hLa with h' | h'
    · subst h'
      exact append_step_same N D L t v win done hN hD hL ha hlen hinv
    · exact append_step_missed N D L a t v win done hN hD hL ha ha1 h' h hlen hdone hinv
  · exact absurd h hgap
  · exact append_step_stale N D L a t v win done hN hD hL ha ha1 h hlen hdone

theorem appendAll_inv {T : Type} (N : Nat) (D : Int) (hN : 1 ≤ N) (hD : D ≠ 0) :
    ∀ (rest done : List (T × Int)) (L : Int) (win : Window T), 0 ≤ L → win.length = N →
      (∀ p ∈ done, div64 p.2 D ≤ L) →
      (∀ i : Nat, i < N → win[i]? = some (valuesAt N D (L - N) L done i)) →
      List.Chain (fun q q' : Int => q ≤ q' ∧ q' - q ≠ N) L
        (rest.map (fun p => div64 p.2 D)) →
      (∀ p ∈ rest, div64 p.2 D < 2 ^ 63) →
      ∃ win', TimePolicy.appendAll ⟨D, N, win, L % N, L⟩ rest =
          .ok ⟨D, N, win', (rest.map (fun p => div64 p.2 D)).getLastD L % N,
            (rest.map (fun p => div64 p.2 D)).getLastD L⟩ ∧
        win'.length = N ∧
        0 ≤ (rest.map (fun p => div64 p.2 D)).getLastD L ∧
        (∀ p ∈ done ++ rest, div64 p.2 D ≤ (rest.map (fun p => div64 p.2 D)).getLastD L) ∧
        ∀ i : Nat, i < N → win'[i]? = some (valuesAt N D
          ((rest.map (fun p => div64 p.2 D)).getLastD L - N)
          ((rest.map (fun p => div64 p.2 D)).getLastD L) (done ++ rest) i) := by
  intro rest
  induction rest with
  | nil =>
    intro done L win hL hlen hdone hinv _ _
    exact ⟨win, rfl, hlen, hL, by simpa using hdone, by simpa using hinv⟩
  | cons p rest ih =>
    intro done L win hL hlen hdone hinv hchain hrange
    obtain ⟨v, t⟩ := p
    simp only [List.map_cons, List.chain_cons] at hchain
    obtain ⟨⟨hLa, hgap⟩, hchain'⟩ := hchain
    obtain ⟨win1, hrun1, hlen1, hinv1⟩ := append_step N D L (div64 t D) t v win done hN hD hL
      rfl (hrange (v, t) (by simp)) hLa hgap hlen hdone hinv
    have hdone1 : ∀ p ∈ done ++ [(v, t)], div64 p.2 D ≤ div64 t D := by
      intro p hp
      rcases List.mem_append.mp hp with h | h
      · exact (hdone p h).trans hLa
      · simp only [List.mem_singleton] at h
        rw [h]
    obtain ⟨win', hrun, hlen', hL', hdone', hinv'⟩ := ih (done ++ [(v, t)]) (div64 t D) win1
      (by omega) hlen1 hdone1 hinv1 hchain' (fun p hp => hrange p (by simp [hp]))
    refine ⟨win', ?_, hlen', ?_, ?_, ?_⟩
    · simp only [TimePolicy.appendAll, hrun1, bind, Except.bind]
      simpa only [List.map_cons, List.getLastD_cons] using hrun
    · simpa only [List.map_cons, List.getLastD_cons] using hL'
    · simpa only [List.map_cons, List.getLastD_cons, List.append_assoc, List.singleton_append]
        using hdone'
    · simpa only [List.map_cons, List.getLastD_cons, List.append_assoc, List.singleton_append]
        using hinv'

theorem append_fresh_inv {T : Type} (N : Nat) (D q t : Int) (v : T) (hN : 1 ≤ N) (hD : D ≠ 0)
    (hq : 0 ≤ q) (ht : div64 t D = q) :
    ∃ win, TimePolicy.AppendWithTimestamp ⟨D, N, List.replicate N [], 0, 0⟩ v t =
        .ok ⟨D, N, win, q % N, q⟩ ∧ win.length = N ∧
      ∀ i : Nat, i < N → win[i]? = some (valuesAt N D (q - N) q [(v, t)] i) := by
  have hN0 : (N : Int) ≠ 0 := by omega
  have h0 : 0 ≤ q % (N : Int) := Int.emod_nonneg _ hN0
  have h1 : q % (N : Int) < N := Int.emod_lt_of_pos _ (by omega)
  have hcast : (((q % (N : Int)).toNat : Nat) : Int) = q % N := Int.toNat_of_nonneg h0
  refine ⟨_, append_fresh N D q t v hN hD hq ht, by simp, ?_⟩
  intro i hi
  by_cases hio : (q % (N : Int)).toNat = i
  · subst hio
    rw [List.getElem?_set, if_pos rfl, if_pos (by simp; omega),
      valuesAt_singleton_pos N D _ _ v t _ ⟨by rw [ht, hcast], by rw [ht]; omega,
        by rw [ht]⟩]
  · rw [List.getElem?_set_ne hio, List.getElem?_replicate, if_pos hi,
      valuesAt_singleton_neg N D _ _ v t _ (by rw [ht]; intro h; exact hio (by omega))]

theorem appendAll_fresh_inv {T : Type} (N : Nat) (D : Int) (hN : 1 ≤ N) (hD : D ≠ 0)
    (v : T) (t : Int) (rest : List (T × Int)) (h0 : 0 ≤ div64 t D)
    (hchain : List.Chain (fun q q' : Int => q ≤ q' ∧ q' - q ≠ N) (div64 t D)
      (rest.map (fun p => div64 p.2 D)))
    (hrange : ∀ p ∈ rest, div64 p.2 D < 2 ^ 63) :
    ∃ win, TimePolicy.appendAll (NewTimePolicy (List.replicate N []) D) ((v, t) :: rest) =
        .ok ⟨D, N, win, (rest.map (fun p => div64 p.2 D)).getLastD (div64 t D) % N,
          (rest.map (fun p => div64 p.2 D)).getLastD (div64 t D)⟩ ∧
      win.length = N ∧
      0 ≤ (rest.map (fun p => div64 p.2 D)).getLastD (div64 t D) ∧
      (∀ p ∈ (v, t) :: rest,
        div64 p.2 D ≤ (rest.map (fun p => div64 p.2 D)).getLastD (div64 t D)) ∧
      ∀ i : Nat, i < N → win[i]? = some (valuesAt N D
        ((rest.map (fun p => div64 p.2 D)).getLastD (div64 t D) - N)
        ((rest.map (fun p => div64 p.2 D)).getLastD (div64 t D)) ((v, t) :: rest) i) := by
  obtain ⟨win1, hrun1, hlen1, hinv1⟩ := append_fresh_inv N D (div64 t D) t v hN hD h0 rfl
  obtain ⟨win', hrun, hlen', hL', hdone', hinv'⟩ := appendAll_inv N D hN hD rest [(v, t)]
    (div64 t D) win1 h0 hlen1 (by simp) hinv1 hchain hrange
  refine ⟨win', ?_, hlen', hL', by simpa using hdone', by simpa using hinv'⟩
  rw [NewTimePolicy_fresh]
  simp only [TimePolicy.appendAll, hrun1, bind, Except.bind]
  exact hrun

theorem div64_mono (t t' D : Int) (h0 : 0 ≤ t) (h : t ≤ t') (h1 : t' < 2 ^ 63) (hD : 0 < D) :
    div64 t D ≤ div64 t' D := by
  rw [(div64_range t D h0 (by omega) hD).2.2, (div64_range t' D (by omega) h1 hD).2.2]
  exact Int.ediv_le_ediv hD h

theorem chain_quanta {T : Type} (N : Nat) (D : Int) (hD : 0 < D) :
    ∀ (rest : List (T × Int)) (p : T × Int),
      (∀ x ∈ p :: rest, 0 ≤ x.2 ∧ x.2 < 2 ^ 63) →
      List.Chain (fun p p' : T × Int => p.2 ≤ p'.2 ∧ div64 p'.2 D - div64 p.2 D ≠ N) p rest →
      List.Chain (fun q q' : Int => q ≤ q' ∧ q' - q ≠ N) (div64 p.2 D)
        (rest.map (fun p => div64 p.2 D)) := by
  intro rest
  induction rest with
  | nil => intro p _ _; exact List.Chain.nil
  | cons x rest ih =>
    intro p hr hc
    simp only [List.chain_cons] at hc
    simp only [List.map_cons, List.chain_cons]
    have hp := hr p (by simp)
    have hx := hr x (by simp)
    refine ⟨⟨div64_mono _ _ D hp.1 hc.1.1 hx.2 hD, hc.1.2⟩, ?_⟩
    exact ih x (fun y hy => hr y (List.mem_cons_of_mem _ hy)) hc.2

/-- C20. For `N ≥ 1`, `D > 0` and a sequence of `AppendWithTimestamp` calls on a fresh
policy over `NewWindow(N)` at `int64` timestamps at or after the epoch that do not
decrease, each fewer than `N` quanta after the one before: after each append (the
first `n` calls, for every `1 ≤ n`), the calls have returned normally and, with `L`
the quantum of the last of them, `lastWindowTime = L`, `lastWindowOffset = L mod N`
and bucket `i` holds exactly the values appended at a quantum `q` with
`q mod N = i` and `L - N < q ≤ L`, in append order. -/
theorem window_holds_last_quanta {T : Type} (N : Nat) (D : Int) (pts : List (T × Int))
    (n : Nat) (hN : 1 ≤ N) (hD : 0 < D)
    (htime : ∀ p ∈ pts, 0 ≤ p.2 ∧ p.2 < 2 ^ 63)
    (hchain : pts.Chain' (fun p p' => p.2 ≤ p'.2 ∧ div64 p'.2 D - div64 p.2 D < N))
    (hn1 : 1 ≤ n) (hn2 : n ≤ pts.length) :
    ∃ win w L, NewWindow (N : Int) = .ok win ∧
      (NewTimePolicy win D).appendAll (pts.take n) = .ok w ∧
      ((pts.take n).map (fun p => div64 p.2 D)).getLast? = some L ∧
      w.lastWindowTime = L ∧ w.lastWindowOffset = L % N ∧ w.window.length = N ∧
      ∀ i : Nat, i < N → w.window[i]? = some (valuesAt N D (L - N) L (pts.take n) i) := by
  have htake : ∀ p ∈ pts.take n, 0 ≤ p.2 ∧ p.2 < 2 ^ 63 :=
    fun p hp => htime p (List.mem_of_mem_take hp)
  have hchain' := (hchain.imp (S := fun p p' : T × Int =>
    p.2 ≤ p'.2 ∧ div64 p'.2 D - div64 p.2 D ≠ N) (fun _ _ h => ⟨h.1, by omega⟩)).take n
  cases hl : pts.take n with
  | nil =>
    have : (pts.take n).length = 0 := by rw [hl]; rfl
    rw [List.length_take] at this
    omega
  | cons p rest =>
    obtain ⟨v, t⟩ := p
    rw [hl] at htake hchain'
    have hq := chain_quanta N D hD rest (v, t) htake hchain'
    have h0 : 0 ≤ div64 t D :=
      (div64_range t D (htake (v, t) (by simp)).1 (htake (v, t) (by simp)).2 hD).1
    obtain ⟨win, hrun, hlen, _, _, hinv⟩ := appendAll_fresh_inv N D hN (by omega) v t rest h0 hq
      (fun p hp => (div64_range p.2 D (htake p (by simp [hp])).1
        (htake p (by simp [hp])).2 hD).2.1)
    exact ⟨_, _, _, NewWindow_ok N, hrun, by simp [List.getLast?_cons], rfl, rfl, hlen, hinv⟩

/-- Four appends on a three-bucket ring with `D = 10`, at quanta 0, 1, 1 and 3: after
the fourth append the last quantum is 3 and the offset is 0. -/
theorem window_holds_last_quanta_witness :
    ∃ win w L, NewWindow (T := Int) ((3 : Nat) : Int) = .ok win ∧
      (NewTimePolicy win 10).appendAll
        (([(5, 0), (6, 10), (7, 15), (8, 30)] : List (Int × Int)).take 4) = .ok w ∧
      ((([(5, 0), (6, 10), (7, 15), (8, 30)] : List (Int × Int)).take 4).map
        (fun p => div64 p.2 10)).getLast? = some L ∧
      w.lastWindowTime = L ∧ w.lastWindowOffset = L % ((3 : Nat) : Int) :=
  (window_holds_last_quanta (T := Int) 3 10 [(5, 0), (6, 10), (7, 15), (8, 30)] 4
      (by decide) (by decide) (by decide)
      (List.Chain.cons (by decide) (List.Chain.cons (by decide)
        (List.Chain.cons (by decide) List.Chain.nil)))
      (by decide) (by decide)).imp
    fun _ h => h.imp fun _ h => h.imp fun _ h => ⟨h.1, h.2.1, h.2.2.1, h.2.2.2.1, h.2.2.2.2.1⟩

theorem sum_range_map {M : Type} [AddCommMonoid M] (h : Nat → M) (N : Nat) :
    ((List.range N).map h).sum = Finset.sum (Finset.range N) h := by
  induction N with
  | zero => simp
  | succ n ih => rw [List.range_succ, List.map_append, List.sum_append, ih,
      Finset.sum_range_succ]; simp

theorem valuesAt_cons {T : Type} (N : Nat) (D lo hi : Int) (p : T × Int)
    (pts : List (T × Int)) (i : Nat) :
    valuesAt N D lo hi (p :: pts) i =
      (if div64 p.2 D % (N : Int) = (i : Int) ∧ lo < div64 p.2 D ∧ div64 p.2 D ≤ hi
        then [p.1] else []) ++ valuesAt N D lo hi pts i := by
  simp only [valuesAt, List.filter_cons, decide_eq_true_eq]
  split <;> simp

theorem valuesIn_cons {T : Type} (D lo hi : Int) (p : T × Int) (pts : List (T × Int)) :
    valuesIn D lo hi (p :: pts) =
      (if lo < div64 p.2 D ∧ div64 p.2 D ≤ hi then [p.1] else []) ++
        valuesIn D lo hi pts := by
  simp only [valuesIn, List.filter_cons, decide_eq_true_eq]
  split <;> simp

theorem valuesAt_sum {T M : Type} [AddCommMonoid M] (N : Nat) (hN : 1 ≤ N) (D lo hi : Int)
    (g : T → M) (pts : List (T × Int)) :
    Finset.sum (Finset.range N) (fun i => ((valuesAt N D lo hi pts i).map g).sum) =
      ((valuesIn D lo hi pts).map g).sum := by
  induction pts with
  | nil => simp [valuesAt, valuesIn]
  | cons p pts ih =>
    have hN0 : (N : Int) ≠ 0 := by omega
    have h0 : 0 ≤ div64 p.2 D % (N : Int) := Int.emod_nonneg _ hN0
    have h1 : div64 p.2 D % (N : Int) < N := Int.emod_lt_of_pos _ (by omega)
    simp only [valuesAt_cons, valuesIn_cons, List.map_append, List.sum_append,
      Finset.sum_add_distrib, ih]
    congr 1
    by_cases hc : lo < div64 p.2 D ∧ div64 p.2 D ≤ hi
    · simp only [hc, and_true, if_true]
      have : ∀ i : Nat, (div64 p.2 D % (N : Int) = (i : Int)) ↔
          ((div64 p.2 D % (N : Int)).toNat = i) := by
        intro i; omega
      simp only [this, apply_ite (fun l : List T => (l.map g).sum), List.map_cons,
        List.map_nil, List.sum_cons, List.sum_nil, add_zero]
      rw [Finset.sum_ite_eq, if_pos (Finset.mem_range.mpr (by omega))]
    · simp [hc]

theorem window_eq_map {T : Type} (N : Nat) (win : Window T) (h : Nat → List T)
    (hlen : win.length = N) (hget : ∀ i : Nat, i < N → win[i]? = some (h i)) :
    win = (List.range N).map h := by
  apply List.ext_getElem?
  intro i
  by_cases hi : i < N
  · rw [hget i hi, List.getElem?_map, List.getElem?_range hi]; rfl
  · rw [List.getElem?_eq_none (by omega), List.getElem?_eq_none (by simp; omega)]

theorem sumLengths_valuesAt {T : Type} (N : Nat) (hN : 1 ≤ N) (D lo hi : Int)
    (pts : List (T × Int)) (win : Window T) (hlen : win.length = N)
    (hget : ∀ i : Nat, i < N → win[i]? = some (valuesAt N D lo hi pts i)) :
    sumLengths win = (valuesIn D lo hi pts).length := by
  have h := valuesAt_sum N hN D lo hi (fun _ : T => (1 : Nat)) pts
  rw [window_eq_map N win _ hlen hget, sumLengths_eq_sum, List.map_map, sum_range_map]
  simpa using h

theorem Sum_valuesAt {T : Type} [AddCommMonoid T] (N : Nat) (hN : 1 ≤ N) (D lo hi : Int)
    (pts : List (T × Int)) (win : Window T) (hlen : win.length = N)
    (hget : ∀ i : Nat, i < N → win[i]? = some (valuesAt N D lo hi pts i)) :
    Sum win = (valuesIn D lo hi pts).sum := by
  have h := valuesAt_sum N hN D lo hi (fun x : T => x) pts
  rw [Sum_eq_sum, List.sum_flatten, window_eq_map N win _ hlen hget, List.map_map,
    sum_range_map]
  simpa using h

theorem query_window {T : Type} (N : Nat) (D L a : Int) (win : Window T)
    (pts : List (T × Int)) (hN : 1 ≤ N) (hL : 0 ≤ L) (ha1 : a < 2 ^ 63) (hLa : L ≤ a)
    (hgap : a - L ≠ N) (hlen : win.length = N) (hdone : ∀ p ∈ pts, div64 p.2 D ≤ L)
    (hinv : ∀ i : Nat, i < N → win[i]? = some (valuesAt N D (L - N) L pts i)) :
    ∃ win', TimePolicy.keepConsistent ⟨D, N, win, L % N, L⟩ a (a % N) =
        .ok ⟨D, N, win', L % N, L⟩ ∧ win'.length = N ∧
      ∀ i : Nat, i < N → win'[i]? = some (valuesAt N D
        (if a = L then a - N else a - N - 1) a pts i) := by
  have hN0 : (N : Int) ≠ 0 := by omega
  have h0 : 0 ≤ a % (N : Int) := Int.emod_nonneg _ hN0
  have h1 : a % (N : Int) < N := Int.emod_lt_of_pos _ (by omega)
  have hl0 : 0 ≤ L % (N : Int) := Int.emod_nonneg _ hN0
  have hl1 : L % (N : Int) < N := Int.emod_lt_of_pos _ (by omega)
  have hsub : sub64 a L = a - L := by
    rw [sub64, wrap64_eq_self (by omega) (by omega)]
  rcases lt_trichotomy (a - L) (N : Int) with h | h | h
  · rcases eq_or_lt_of_le hLa with h' | h'
    · subst h'
      refine ⟨win, keepConsistent_same _ _ (by simp), hlen, ?_⟩
      intro i hi
      rw [if_pos rfl]
      exact hinv i hi
    · obtain ⟨window1, hrun, hlen1, hget⟩ := resetBuckets_spec
        (⟨D, N, win, L % N, L⟩ : TimePolicy T) (a % N) (by simp; omega) (by simp [hlen])
        ⟨hl0, hl1⟩ ⟨h0, h1⟩
      simp only at hrun hlen1 hget
      refine ⟨window1, ?_, by omega, ?_⟩
      · rw [keepConsistent_missed _ a (a % N) (by simp only; omega)
          (by simp only; rw [hsub]; exact h)]
        exact hrun
      · intro i hi
        rw [if_neg (by omega)]
        have hi' : i < win.length := by omega
        by_cases hex : ∃ c : Int, 1 ≤ c ∧ c < a - L ∧ (L + c) % (N : Int) = (i : Int)
        · rw [((hget i hi').1 ((cleared_iff N L a i h' h).mpr hex))]
          obtain ⟨c, hc1, hc2, hc3⟩ := hex
          rw [valuesAt_eq_nil N D _ _ pts i (fun p hp hq => by
            have hq' := hdone p hp
            have := emod_eq_imp_eq _ _ N (hq.1.trans hc3.symm) (by omega) (by omega)
            omega)]
        · rw [((hget i hi').2 (fun hc => hex ((cleared_iff N L a i h' h).mp hc))),
            hinv i hi]
          congr 1
          apply valuesAt_congr
          intro p hp
          have hq := hdone p hp
          constructor
          · rintro ⟨hm, hlo, _⟩
            refine ⟨hm, ?_, by omega⟩
            by_contra hcon
            apply hex
            refine ⟨div64 p.2 D + N - L, by omega, by omega, ?_⟩
            have : L + (div64 p.2 D + N - L) = div64 p.2 D + N := by ring
            rw [this, Int.add_emod_self, hm]
          · rintro ⟨hm, hlo, _⟩
            exact ⟨hm, by omega, hq⟩
  · exact absurd h hgap
  · refine ⟨List.replicate N [], ?_, by simp, ?_⟩
    · rw [keepConsistent_full _ a (a % N) (by simp only; rw [hsub]; exact h)]
      simp [TimePolicy.resetWindow, hlen]
    · intro i hi
      rw [List.getElem?_replicate, if_pos hi, valuesAt_eq_nil N D _ _ pts i (fun p hp hq => by
        have hq' := hdone p hp
        split at hq <;> omega)]

/-- C18, refuted at `N = 3`, `D = 1`: after appending 1, 2, 3 at the quanta 0, 1, 2, a
query at quantum 3 clears nothing (the bucket of offset 0 still holds the value of
quantum 0), so `Count()` is 3 and `Reduce(Sum)` is 6, while the values of the quanta
`q` with `3 - 3 < q ≤ 3` are 2 and 3: two values, of sum 5. -/
theorem count_includes_bucket_of_query_offset :
    (NewTimePolicy (List.replicate 3 []) 1).appendAll [((1 : Int), 0), (2, 1), (3, 2)] =
      .ok ⟨1, 3, [[1], [2], [3]], 2, 2⟩ ∧
    TimePolicy.Count (⟨1, 3, [[1], [2], [3]], 2, 2⟩ : TimePolicy Int) 3 =
      .ok (3, ⟨1, 3, [[1], [2], [3]], 2, 2⟩) ∧
    TimePolicy.Reduce (⟨1, 3, [[1], [2], [3]], 2, 2⟩ : TimePolicy Int) Sum 3 =
      .ok (6, ⟨1, 3, [[1], [2], [3]], 2, 2⟩) ∧
    div64 3 1 = 3 ∧
    valuesIn 1 (3 - 3) 3 [((1 : Int), 0), (2, 1), (3, 2)] = [2, 3] :=
  ⟨rfl, rfl, rfl, by decide, by decide⟩

/-- C18, amended.  For `N ≥ 1`, `D > 0`, a sequence of `AppendWithTimestamp` calls on a
fresh policy over `NewWindow(N)` at `int64` timestamps at or after the epoch that do not
decrease, none exactly `N` quanta after the one before, and a query time `now` at or
after the last append whose quantum `a = now / D` is not exactly `N` quanta after the
quantum `L` of the last append: the appends and the queries return normally,
`Count()` at `now` is the number of appended values whose quantum `q` satisfies
`a - N < q ≤ a` when `a = L` and `a - N ≤ q ≤ a` when `a > L` (a query does not empty
the bucket of its own offset), and `Reduce(Sum)` at `now` is the sum of those
values. -/
theorem count_covers_trailing_quanta {T : Type} [AddCommMonoid T] (N : Nat) (D now : Int)
    (pts : List (T × Int)) (hN : 1 ≤ N) (hD : 0 < D)
    (htime : ∀ p ∈ pts, 0 ≤ p.2 ∧ p.2 < 2 ^ 63)
    (hchain : pts.Chain' (fun p p' => p.2 ≤ p'.2 ∧ div64 p'.2 D - div64 p.2 D ≠ N))
    (hnow : 0 ≤ now ∧ now < 2 ^ 63 ∧ ∀ p ∈ pts, p.2 ≤ now)
    (hgap : ∀ L : Int, (pts.map (fun p => div64 p.2 D)).getLast? = some L →
      div64 now D - L ≠ N) :
    ∃ win w w', NewWindow (N : Int) = .ok win ∧
      (NewTimePolicy win D).appendAll pts = .ok w ∧
      (∀ L : Int, (pts.map (fun p => div64 p.2 D)).getLast? = some L →
        w.lastWindowTime = L) ∧
      w.Count now = .ok ((valuesIn D
        (if div64 now D = w.lastWindowTime then div64 now D - N else div64 now D - N - 1)
        (div64 now D) pts).length, w') ∧
      w.Reduce Sum now = .ok ((valuesIn D
        (if div64 now D = w.lastWindowTime then div64 now D - N else div64 now D - N - 1)
        (div64 now D) pts).sum, w') := by
  have hD0 : D ≠ 0 := by omega
  have hN0 : (N : Int) ≠ 0 := by omega
  obtain ⟨ha0, ha1, _⟩ := div64_range now D hnow.1 hnow.2.1 hD
  have htm : (div64 now D).tmod (N : Int) = div64 now D % N :=
    Int.tmod_eq_emod ha0 (by omega)
  cases pts with
  | nil =>
    have hkc := keepConsistent_of_empty
      (⟨D, N, List.replicate N [], 0, 0⟩ : TimePolicy T) (div64 now D)
      ((div64 now D).tmod (N : Int)) (by simp; omega) (by simp) (by simp; omega)
      (by rw [htm]; exact ⟨Int.emod_nonneg _ hN0, Int.emod_lt_of_pos _ (by omega)⟩)
      (by intro b hb; exact (List.mem_replicate.mp hb).2)
    refine ⟨List.replicate N [], ⟨D, N, List.replicate N [], 0, 0⟩,
      ⟨D, N, List.replicate N [], 0, 0⟩, NewWindow_ok N, ?_, ?_, ?_, ?_⟩
    · rw [NewTimePolicy_fresh]; rfl
    · intro L hL; simp at hL
    · rw [Count_of_keepConsistent _ _ now hD0 hN0 hkc]
      simp [sumLengths_eq_sum, valuesIn]
    · rw [Reduce_of_keepConsistent _ _ Sum now hD0 hN0 hkc, Sum_eq_sum]
      simp [valuesIn]
  | cons p rest =>
    obtain ⟨v, t⟩ := p
    have hq := chain_quanta N D hD rest (v, t) htime hchain
    have h0 : 0 ≤ div64 t D :=
      (div64_range t D (htime (v, t) (by simp)).1 (htime (v, t) (by simp)).2 hD).1
    obtain ⟨win, hrun, hlen, hL0, hdone, hinv⟩ := appendAll_fresh_inv N D hN hD0 v t rest h0 hq
      (fun p hp => (div64_range p.2 D (htime p (by simp [hp])).1
        (htime p (by simp [hp])).2 hD).2.1)
    have hlast : (((v, t) :: rest).map (fun p => div64 p.2 D)).getLast? =
        some ((rest.map (fun p => div64 p.2 D)).getLastD (div64 t D)) := by
      simp [List.getLast?_cons]
    have hall : ∀ p ∈ (v, t) :: rest, div64 p.2 D ≤ div64 now D := fun p hp =>
      div64_mono _ _ D (htime p hp).1 (hnow.2.2 p hp) hnow.2.1 hD
    have hLa : (rest.map (fun p => div64 p.2 D)).getLastD (div64 t D) ≤ div64 now D := by
      have hm := List.getLastD_mem_cons (rest.map (fun p => div64 p.2 D)) (div64 t D)
      rw [← List.map_cons (fun p : T × Int => div64 p.2 D) (v, t) rest] at hm
      obtain ⟨p, hp, hpe⟩ := List.mem_map.mp hm
      rw [← hpe]
      exact hall p hp
    obtain ⟨win', hkc, hlen', hinv'⟩ := query_window N D _ (div64 now D) win ((v, t) :: rest)
      hN hL0 ha1 hLa (hgap _ hlast) hlen hdone hinv
    refine ⟨List.replicate N [], _,
      ⟨D, N, win', (rest.map (fun p => div64 p.2 D)).getLastD (div64 t D) % N,
        (rest.map (fun p => div64 p.2 D)).getLastD (div64 t D)⟩,
      NewWindow_ok N, hrun, ?_, ?_, ?_⟩
    · intro L hL
      rw [hlast] at hL
      exact Option.some.inj hL
    · rw [Count_of_keepConsistent _ _ now hD0 hN0 (by rw [htm]; exact hkc)]
      simp only [sumLengths_valuesAt N hN D _ _ _ win' hlen' hinv']
    · rw [Reduce_of_keepConsistent _ _ Sum now hD0 hN0 (by rw [htm]; exact hkc)]
      simp only [Sum_valuesAt N hN D _ _ _ win' hlen' hinv']

/-- The count and the sum one quantum after three appends at the quanta 0, 1 and 2 of a
three-bucket ring. -/
theorem count_covers_trailing_quanta_witness :
    ∃ win w w', NewWindow (T := Int) ((3 : Nat) : Int) = .ok win ∧
      (NewTimePolicy win 1).appendAll [((1 : Int), 0), (2, 1), (3, 2)] = .ok w ∧
      (∀ L : Int, (([((1 : Int), 0), (2, 1), (3, 2)] : List (Int × Int)).map
        (fun p => div64 p.2 1)).getLast? = some L → w.lastWindowTime = L) ∧
      w.Count 3 = .ok ((valuesIn 1
        (if div64 3 1 = w.lastWindowTime then div64 3 1 - ((3 : Nat) : Int)
          else div64 3 1 - ((3 : Nat) : Int) - 1)
        (div64 3 1) [((1 : Int), 0), (2, 1), (3, 2)]).length, w') ∧
      w.Reduce Sum 3 = .ok ((valuesIn 1
        (if div64 3 1 = w.lastWindowTime then div64 3 1 - ((3 : Nat) : Int)
          else div64 3 1 - ((3 : Nat) : Int) - 1)
        (div64 3 1) [((1 : Int), 0), (2, 1), (3, 2)]).sum, w') :=
  count_covers_trailing_quanta (T := Int) 3 1 3 [(1, 0), (2, 1), (3, 2)] (by decide)
    (by decide) (by decide)
    (List.Chain.cons (by decide) (List.Chain.cons (by decide) List.Chain.nil))
    (by decide) (by decide)

end Rollingwindow
